import Mathlib

/-!
Shallow embedding of `src/mcp_pkm_logseq/to_markdown.py`: the Normalizer
(`clean_response` and its record constructors), the Property Extractor
(`extract_properties_func`), the Tree Builder (`find_direct_children`,
`find_first_block`, `chain_blocks`, `reorganize_blocks`), the Renderer
(`format_block`, `format_blocks`, `build_markdown`) and the Facade
(`page_to_markdown`).

Conventions of the embedding:
- Python `dict[int, Block]` is represented by an association list
  `List (Int × Block)` in key-insertion order; `.values()` is `map Prod.snd`.
- Python exceptions of the Normalizer become `Except NormError`; the only
  two error conditions raised by the source are the empty-input `IndexError`
  and the missing-field `KeyError` (`NormError.emptyInput` /
  `NormError.malformedRecord`).
- The recursion of `reorganize_blocks` (and the tree walk of `format_block`)
  is general recursion in Python; it is embedded with an explicit `fuel`
  argument counting recursion depth.  The wrappers used by the rendering
  pipeline pass `length + 1` fuel, an upper bound on the depth of any
  terminating Python run (a deeper run would revisit a block id and diverge
  in Python).
- The `while remaining_children` loop of `chain_blocks` removes one element
  per iteration, so it is embedded with fuel `remaining_children.length`,
  which is exact.
- Python string operations are embedded at the character level where Lean's
  counterparts are not kernel-computable: `content.split("\n")` is
  `strLines` and the containment test of the triple-backtick marker is
  `containsFence` on `String.data`.
-/

/-- A Logseq property value: either a plain (stringified) value or a list of
values, mirroring the two cases of `format_property_default`. -/
inductive PropValue where
  | str : String → PropValue
  | list : List String → PropValue

/-- A Logseq page (`Page` dataclass). -/
structure Page where
  id : Int
  name : String
  original_name : String

/-- A Logseq block (`Block` dataclass).  `properties = []` plays the role of
both `None` and `{}` (they are indistinguishable to the source, which only
tests truthiness). -/
structure Block where
  id : Int
  content : String
  parent_id : Int
  left_id : Int
  page_id : Int
  properties : List (String × PropValue) := []
  is_page_property : Bool := false
  children : List Block := []

/-- String rendering of a property value (Python `str(v)` on the scalar case,
`", ".join(str(v) for v in value)` on the list case). -/
def propValueStr : PropValue → String
  | .str v => v
  | .list vs => String.intercalate ", " vs

/-- Embedding of `format_property_default`. -/
def format_property_default (key : String) (value : PropValue) : String :=
  match value with
  | .list vs => key ++ ":: " ++ String.intercalate ", " vs
  | .str v => key ++ ":: " ++ v

/-- The default property filter of the source:
`lambda block: block.is_page_property and block.properties`. -/
def default_property_filter (block : Block) : Bool :=
  block.is_page_property && !block.properties.isEmpty

/-- The two error conditions raised by the Normalizer: the `IndexError` on an
empty response and the `KeyError` on a record missing a required field. -/
inductive NormError where
  | emptyInput
  | malformedRecord

/-- A raw nested reference (`{"id": ...}`); a missing `id` key is `none`. -/
structure RawRef where
  id : Option Int

/-- The raw `page` sub-record; missing keys are `none`. -/
structure RawPage where
  id : Option Int
  name : Option String
  originalName : Option String

/-- One raw block record of the API response.  Every field that the source
reads with `[...]` is an `Option` whose `none` models the key being absent;
`properties` and `preBlock` are read with `.get(..., default)` in the source
and are `Option` with an explicit default. -/
structure RawRecord where
  id : Option Int
  content : Option String
  parent : Option RawRef
  left : Option RawRef
  page : Option RawPage
  properties : Option (List (String × PropValue)) := none
  preBlock : Option Bool := none

/-- Reading a required key: a missing key raises `KeyError`, i.e. the
malformed-record condition. -/
def require {α : Type} : Option α → Except NormError α
  | some a => .ok a
  | none => .error .malformedRecord

/-- Embedding of `create_page_from_block_data`. -/
def create_page_from_block_data (block_data : RawRecord) : Except NormError (Int × Page) :=
  match require block_data.page with
  | .error e => .error e
  | .ok page_data =>
    match require page_data.id with
    | .error e => .error e
    | .ok page_id =>
      match require page_data.name with
      | .error e => .error e
      | .ok name =>
        match require page_data.originalName with
        | .error e => .error e
        | .ok original_name => .ok (page_id, ⟨page_id, name, original_name⟩)

/-- Embedding of `create_block_from_data`. -/
def create_block_from_data (block_data : RawRecord) : Except NormError (Int × Block) :=
  match require block_data.page with
  | .error e => .error e
  | .ok page_data =>
    match require page_data.id with
    | .error e => .error e
    | .ok page_id =>
      let is_page_property := block_data.preBlock.getD false
      match require block_data.id with
      | .error e => .error e
      | .ok block_id =>
        match require block_data.content with
        | .error e => .error e
        | .ok content =>
          match require block_data.parent with
          | .error e => .error e
          | .ok parent =>
            match require parent.id with
            | .error e => .error e
            | .ok parent_id =>
              match require block_data.left with
              | .error e => .error e
              | .ok left =>
                match require left.id with
                | .error e => .error e
                | .ok left_id =>
                  let properties := block_data.properties.getD []
                  .ok (block_id, ⟨block_id, content, parent_id, left_id, page_id,
                    properties, is_page_property, []⟩)

/-- A Python `for` loop over the response that raises on the first bad record
(the effect of the loops in `clean_response` and of the generator in
`track_page_order`). -/
def mapExcept {α β : Type} (f : α → Except NormError β) : List α → Except NormError (List β)
  | [] => .ok []
  | x :: xs =>
    match f x with
    | .error e => .error e
    | .ok y =>
      match mapExcept f xs with
      | .error e => .error e
      | .ok ys => .ok (y :: ys)

/-- The page id of one raw record, as read by `track_page_order`. -/
def pageIdOf (block_data : RawRecord) : Except NormError Int :=
  match require block_data.page with
  | .error e => .error e
  | .ok page_data => require page_data.id

/-- Order-preserving deduplication (`dict.fromkeys`). -/
def dedupFirst (ids : List Int) : List Int :=
  ids.foldl (fun acc i => if acc.contains i then acc else acc ++ [i]) []

/-- Embedding of `track_page_order`. -/
def track_page_order (response : List RawRecord) : Except NormError (List Int) :=
  match mapExcept pageIdOf response with
  | .error e => .error e
  | .ok ids => .ok (dedupFirst ids)

/-- Insertion into `pages_dict`: first writer wins (`if page_id not in pages_dict`). -/
def pagesDictInsert (acc : List (Int × Page)) (p : Int × Page) : List (Int × Page) :=
  if acc.any (fun q => q.1 == p.1) then acc else acc ++ [p]

/-- Insertion into the `blocks` dict: `blocks[block_id] = block`, last writer
wins and the key keeps its first position. -/
def blocksDictInsert (acc : List (Int × Block)) (p : Int × Block) : List (Int × Block) :=
  if acc.any (fun q => q.1 == p.1) then
    acc.map (fun q => if q.1 == p.1 then (q.1, p.2) else q)
  else acc ++ [p]

/-- Embedding of `clean_response`. -/
def clean_response (response : List RawRecord) :
    Except NormError (List Page × List (Int × Block)) :=
  if response.isEmpty then .error .emptyInput
  else
    match mapExcept create_page_from_block_data response with
    | .error e => .error e
    | .ok pagePairs =>
      match mapExcept create_block_from_data response with
      | .error e => .error e
      | .ok blockPairs =>
        match track_page_order response with
        | .error e => .error e
        | .ok seen_page_ids =>
          let pages_dict := pagePairs.foldl pagesDictInsert []
          let blocks := blockPairs.foldl blocksDictInsert []
          let pages := seen_page_ids.filterMap
            (fun page_id => (pages_dict.find? (fun q => q.1 == page_id)).map Prod.snd)
          .ok (pages, blocks)

/-- Embedding of `extract_properties_func` (a fold over `blocks.items()`;
`remaining_blocks` is a fresh dict filled in iteration order). -/
def extract_properties_func (blocks : List (Int × Block))
    (property_filter : Block → Bool)
    (format_property : String → PropValue → String)
    (remove_extracted : Bool) : List String × List (Int × Block) :=
  blocks.foldl
    (fun acc kv =>
      let matched := property_filter kv.2
      let props :=
        if matched && !kv.2.properties.isEmpty then
          acc.1 ++ kv.2.properties.map (fun p => format_property p.1 p.2)
        else acc.1
      let should_remove := matched && remove_extracted
      if should_remove then (props, acc.2) else (props, acc.2 ++ [kv]))
    ([], [])

/-- Embedding of `find_direct_children`. -/
def find_direct_children (blocks : List (Int × Block)) (parent_id : Int) : List Block :=
  (blocks.map Prod.snd).filter (fun block => block.parent_id == parent_id)

/-- Embedding of `find_first_block` (first block whose `left_id` equals the
parent id, in dict-value order). -/
def find_first_block (children : List Block) (parent_id : Int) : Option Block :=
  children.find? (fun child => child.left_id == parent_id)

/-- Remove the first element satisfying `p`, keeping the rest in order: the
effect of one pass of the inner `for`/`pop(i)` of `chain_blocks`. -/
def extractFirst (p : Block → Bool) : List Block → Option (Block × List Block)
  | [] => none
  | b :: bs =>
    if p b then some (b, bs)
    else
      match extractFirst p bs with
      | none => none
      | some (c, rest) => some (c, b :: rest)

/-- The `while remaining_children` loop of `chain_blocks`: follow the
`left_id` chain; on a break, flush the remaining blocks in order.  The fuel
is the length of `remaining`, which the loop can never exceed since every
iteration removes one element. -/
def chainLoop : Nat → Int → List Block → List Block
  | 0, _, remaining => remaining
  | fuel + 1, current_id, remaining =>
    match extractFirst (fun child => child.left_id == current_id) remaining with
    | some (child, rest) => child :: chainLoop fuel child.id rest
    | none => remaining

/-- Embedding of `chain_blocks`. -/
def chain_blocks (children : List Block) (first_block : Block) : List Block :=
  let remaining_children := children.filter (fun child => child.id != first_block.id)
  first_block :: chainLoop remaining_children.length first_block.id remaining_children

/-- Embedding of `reorganize_blocks`, with explicit recursion-depth fuel. -/
def reorganizeFuel : Nat → List (Int × Block) → Int → List Block
  | 0, _, _ => []
  | fuel + 1, blocks, parent_id =>
    let children := find_direct_children blocks parent_id
    if children.isEmpty then []
    else
      let sorted_children :=
        match find_first_block children parent_id with
        | some first_block => chain_blocks children first_block
        | none => children
      sorted_children.map (fun child => { child with children := reorganizeFuel fuel blocks child.id })

/-- The `reorganize_blocks` entry point used by the pipeline: fuel
`length + 1` bounds the depth of every terminating Python run. -/
def reorganize_blocks (blocks : List (Int × Block)) (parent_id : Int) : List Block :=
  reorganizeFuel (blocks.length + 1) blocks parent_id

/-- Embedding of `format_block_properties`. -/
def format_block_properties (properties : List (String × PropValue)) (indent : String)
    (format_property : String → PropValue → String) : Option String :=
  if properties.isEmpty then none
  else
    let props_parts := properties.map (fun p => format_property p.1 p.2)
    if props_parts.isEmpty then none
    else some (indent ++ "properties: " ++ String.intercalate ", " props_parts)

/-- Python `"  " * level`. -/
def indentStr (level : Nat) : String :=
  String.join (List.replicate level "  ")

/-- The backtick character (code 96), written by code point. -/
def backtickChar : Char := Char.ofNat 96

/-- Containment of the literal triple-backtick marker, at character level
(Python `"```" in content`). -/
def containsFence : List Char → Bool
  | c1 :: c2 :: c3 :: rest =>
    (c1 == backtickChar && c2 == backtickChar && c3 == backtickChar)
      || containsFence (c2 :: c3 :: rest)
  | _ => false

/-- Character-level split on the newline character. -/
def splitNL : List Char → List (List Char)
  | [] => [[]]
  | c :: cs =>
    let r := splitNL cs
    if c = Char.ofNat 10 then [] :: r
    else
      match r with
      | [] => [[c]]
      | l :: ls => (c :: l) :: ls

/-- Python `content.split("\n")`. -/
def strLines (s : String) : List String :=
  (splitNL s.data).map (fun cs => ⟨cs⟩)

/-- The `result` lines contributed by the content of one block in
`format_block`: the fenced-code branch re-emits `lines[1:-1]` and then
`lines[-1]`; the plain branch emits the whole content after the bullet. -/
def contentLines (block : Block) (indent : String) : List String :=
  if containsFence block.content.data then
    let lines := strLines block.content
    [indent ++ "- " ++ lines.headD ""]
      ++ (lines.drop 1).dropLast.map (fun line => indent ++ "  " ++ line)
      ++ [indent ++ "  " ++ lines.getLastD ""]
  else
    [indent ++ "- " ++ block.content]

/-- Embedding of `format_block`, with recursion-depth fuel. -/
def format_block : Nat → (String → PropValue → String) → Nat → Block → String
  | 0, _, _, _ => ""
  | fuel + 1, format_property, level, block =>
    let indent := indentStr level
    let propsPart :=
      match format_block_properties block.properties (indentStr (level + 1)) format_property with
      | some s => [s]
      | none => []
    String.intercalate "\n"
      (contentLines block indent ++ propsPart
        ++ block.children.map (format_block fuel format_property (level + 1)))

/-- Embedding of `format_blocks`. -/
def format_blocks (fuel : Nat) (blocks : List Block)
    (format_property : String → PropValue → String) : String :=
  if blocks.isEmpty then ""
  else String.intercalate "\n" (blocks.map (format_block fuel format_property 0)) ++ "\n"

/-- Embedding of `build_markdown`. -/
def build_markdown (page : Page) (blocks : List (Int × Block))
    (property_filter : Block → Bool)
    (format_property : String → PropValue → String) : String :=
  let result := ["# " ++ page.original_name, ""]
  let extracted := extract_properties_func blocks property_filter format_property true
  let result :=
    if extracted.1.isEmpty then result
    else result ++ ["properties:"] ++ extracted.1.map (fun prop => "- " ++ prop) ++ [""]
  let reorganized := reorganize_blocks extracted.2 page.id
  let block_markdown := format_blocks (extracted.2.length + 1) reorganized format_property
  let result := if block_markdown = "" then result else result ++ [block_markdown]
  String.intercalate "\n" result

/-- Stable insertion of one page into a descending-by-id list: equal ids stay
behind earlier entries, reproducing the order contract of Python
`sorted(pages, key=lambda p: p.id, reverse=True)` (a stable descending
sort). -/
def insertPageDesc (p : Page) : List Page → List Page
  | [] => [p]
  | q :: qs => if q.id < p.id then p :: q :: qs else q :: insertPageDesc p qs

/-- Stable descending-by-id sort of the page list. -/
def sortPagesDesc (pages : List Page) : List Page :=
  pages.foldl (fun acc p => insertPageDesc p acc) []

/-- Embedding of the facade `page_to_markdown`. -/
def page_to_markdown (response : List RawRecord)
    (property_filter : Block → Bool)
    (format_property : String → PropValue → String) : Except NormError String :=
  if response.isEmpty then .ok ""
  else
    match clean_response response with
    | .error e => .error e
    | .ok (pages, blocks) =>
      match pages with
      | [page] => .ok (build_markdown page blocks property_filter format_property)
      | _ =>
        let sorted_pages := sortPagesDesc pages
        .ok (String.intercalate "\n\n" (sorted_pages.map (fun page =>
          build_markdown page (blocks.filter (fun kv => kv.2.page_id == page.id))
            property_filter format_property)))

/-! Specification-side definitions.  These are written from the words of the
spec (not from the source) and are compared against the embedded source
functions in the theorems below. -/

/-- Forget the derived `children` field of a block, for comparing tree nodes
with the raw blocks they came from. -/
def forgetChildren (b : Block) : Block := { b with children := [] }

/-- Decidable test that a list of blocks is an intact `left_id` chain whose
head hangs off `root`: each block's `left_id` is the id of its predecessor
(`root` for the first). -/
def isChainFromB (root : Int) : List Block → Bool
  | [] => true
  | c :: cs => c.left_id == root && isChainFromB c.id cs

/-- The id of the last placed block, or the root id when nothing is placed
yet. -/
def lastId (root : Int) (l : List Block) : Int :=
  match l.getLast? with
  | none => root
  | some b => b.id

/-- The order the spec describes: starting from the root id, repeatedly take
the candidate whose `left_id` equals the id of the previously placed block.
The walk looks at the whole candidate set at each step and runs for exactly
`candidate_count` steps. -/
def specChain (ch : List Block) : Nat → Int → List Block
  | 0, _ => []
  | n + 1, current =>
    match ch.find? (fun c => c.left_id == current) with
    | none => []
    | some c => c :: specChain ch n c.id

/-- The spec-side sibling order at one level. -/
def specOrder (blocks : List (Int × Block)) (root : Int) : List Block :=
  specChain (find_direct_children blocks root) (find_direct_children blocks root).length root

/-- The spec-side tree: the chain order applied recursively at every level. -/
def specTree : Nat → List (Int × Block) → Int → List Block
  | 0, _, _ => []
  | fuel + 1, blocks, root =>
    (specOrder blocks root).map (fun c => { c with children := specTree fuel blocks c.id })

/-- The well-formedness of one level that the spec's ordering guarantee
assumes: candidate ids are distinct, exactly one candidate is the head
(`left_id` equal to the root id), and some arrangement of all candidates is
an intact acyclic chain. -/
def GoodLevel (blocks : List (Int × Block)) (root : Int) : Prop :=
  ((find_direct_children blocks root).map Block.id).Nodup ∧
  (find_direct_children blocks root).countP (fun c => c.left_id == root) = 1 ∧
  ∃ L, (find_direct_children blocks root).Perm L ∧ isChainFromB root L = true

/-- Level well-formedness at every level reachable within `fuel` recursion
steps. -/
def GoodRec : Nat → List (Int × Block) → Int → Prop
  | 0, _, _ => True
  | fuel + 1, blocks, root =>
    (find_direct_children blocks root ≠ [] → GoodLevel blocks root) ∧
    ∀ c ∈ find_direct_children blocks root, GoodRec fuel blocks c.id

/-- Membership of a block in a forest of trees (the node itself or anywhere
below it). -/
inductive InForest (x : Block) : List Block → Prop
  | here : ∀ {t : Block} {ts : List Block}, t ∈ ts → x = t → InForest x ts
  | deeper : ∀ {t : Block} {ts : List Block}, t ∈ ts → InForest x t.children → InForest x ts

/-- The ids reachable from `root` by following `parent_id` links downward:
`root` itself, and the id of any block of the mapping whose `parent_id` is
reachable. -/
inductive ReachId (blocks : List (Int × Block)) (root : Int) : Int → Prop
  | base : ReachId blocks root root
  | step : ∀ {b : Block}, b ∈ blocks.map Prod.snd → ReachId blocks root b.parent_id →
      ReachId blocks root b.id

/-- The subtree of a block `o`: `o` itself and every block of the mapping
reachable from `o` via `parent_id` links. -/
inductive InSubtree (blocks : List (Int × Block)) (o : Block) : Block → Prop
  | base : InSubtree blocks o o
  | step : ∀ {b c : Block}, InSubtree blocks o c → b ∈ blocks.map Prod.snd →
      b.parent_id = c.id → InSubtree blocks o b

/-- All seven required nested fields of a raw record are present
(`page.id`, `page.name`, `page.originalName`, `parent.id`, `left.id`, `id`,
`content`). -/
def hasRequiredFields (r : RawRecord) : Bool :=
  (match r.page with
   | none => false
   | some pd => pd.id.isSome && pd.name.isSome && pd.originalName.isSome) &&
  r.id.isSome && r.content.isSome &&
  (match r.parent with | none => false | some p => p.id.isSome) &&
  (match r.left with | none => false | some p => p.id.isSome)

/-- The page list produced by a successful normalization (and `[]` on a
failing one); lets concrete instances be stated without spelling the
normalizer output. -/
def cleanedPages (response : List RawRecord) : List Page :=
  match clean_response response with
  | .ok pb => pb.1
  | .error _ => []

/-- The block mapping produced by a successful normalization (and `[]` on a
failing one). -/
def cleanedBlocks (response : List RawRecord) : List (Int × Block) :=
  match clean_response response with
  | .ok pb => pb.2
  | .error _ => []

/-! Concrete fixtures used by the witness and counterexample theorems. -/

/-- A fully populated raw record: block `bid` with the given parent and left
ids, on page `pid`. -/
def mkRecord (pid bid parent leftid : Int) (content : String) (pname poname : String) : RawRecord :=
  { id := some bid, content := some content, parent := some ⟨some parent⟩,
    left := some ⟨some leftid⟩, page := some ⟨some pid, some pname, some poname⟩ }

/-- Chain witness: head block (id 1) at the root level. -/
def blkW1 : Block := ⟨1, "one", 100, 100, 100, [], false, []⟩

/-- Chain witness: second block (id 2), `left_id` pointing at block 1. -/
def blkW2 : Block := ⟨2, "two", 100, 1, 100, [], false, []⟩

/-- Chain witness: nested block (id 3) under block 1. -/
def blkW3 : Block := ⟨3, "three", 1, 1, 100, [], false, []⟩

/-- Chain witness mapping: two chained root blocks, one nested block. -/
def blocksW1 : List (Int × Block) := [(1, blkW1), (2, blkW2), (3, blkW3)]

/-- Cycle witness: the head block (id 1). -/
def blkW2Head : Block := ⟨1, "a", 100, 100, 100, [], false, []⟩

/-- Cycle witness: a head block plus a self-referencing block (`left_id`
equal to its own id). -/
def blocksW2 : List (Int × Block) :=
  [(1, blkW2Head), (2, ⟨2, "b", 100, 2, 100, [], false, []⟩)]

/-- Headless witness: a single root block whose `left_id` matches nothing. -/
def blocksW3a : List (Int × Block) := [(1, ⟨1, "a", 100, 55, 100, [], false, []⟩)]

/-- Broken-chain witness: the head block (id 1). -/
def blkW3bHead : Block := ⟨1, "a", 100, 100, 100, [], false, []⟩

/-- Broken-chain witness: a head (id 1), a block chained after it (id 3), and
a block whose `left_id` matches nothing (id 2). -/
def blocksW3b : List (Int × Block) :=
  [(1, blkW3bHead),
   (2, ⟨2, "b", 100, 77, 100, [], false, []⟩),
   (3, ⟨3, "c", 100, 1, 100, [], false, []⟩)]

/-- Orphan witness: the orphan block (parent id 50 resolves to nothing). -/
def blkOrphan : Block := ⟨2, "orphan", 50, 50, 99, [], false, []⟩

/-- Orphan witness: a block inside the orphan's subtree. -/
def blkOrphanChild : Block := ⟨3, "sub", 2, 2, 99, [], false, []⟩

/-- Orphan witness: the one well-formed root block of page 99. -/
def blkW4Root : Block := ⟨1, "a", 99, 99, 99, [], false, []⟩

/-- Orphan witness mapping: one good root block (page id 99), the orphan, and
the orphan's child. -/
def blocksW4 : List (Int × Block) :=
  [(1, blkW4Root), (2, blkOrphan), (3, blkOrphanChild)]

/-- A complete well-formed record on page 7. -/
def recW5 : RawRecord := mkRecord 7 1 7 7 "hello" "pg" "Pg"

/-- A malformed record: the required `content` field is missing. -/
def recW6 : RawRecord :=
  { id := some 1, content := none, parent := some ⟨some 7⟩,
    left := some ⟨some 7⟩, page := some ⟨some 7, some "pg", some "Pg"⟩ }

/-- Multi-page witness response: pages 1000, 3000, 2000 in scrambled input
order. -/
def respW7 : List RawRecord :=
  [mkRecord 1000 1 1000 1000 "low" "low id page" "Low ID Page",
   mkRecord 3000 3 3000 3000 "high" "high id page" "High ID Page",
   mkRecord 2000 2 2000 2000 "mid" "medium id page" "Medium ID Page"]

/-- A block whose content is a three-line fenced code span. -/
def blkW8 : Block := ⟨1, "```py\ncode\n```", 0, 0, 0, [], false, []⟩

/-- A block whose single-line content contains the fence marker. -/
def blkC8 : Block := ⟨1, "```x", 0, 0, 0, [], false, []⟩

/-- A block with an empty property map. -/
def blkC9 : Block := ⟨1, "x", 0, 0, 0, [], false, []⟩

/-- A content block carrying a property map, with one child. -/
def blkW10 : Block :=
  ⟨1, "tagged", 0, 0, 0, [("a", .str "b"), ("c", .list ["d", "e"])], false,
    [⟨2, "kid", 1, 1, 0, [], false, []⟩]⟩

/-! Helper lemmas about the Normalizer's error behavior. -/

theorem require_error {α : Type} {o : Option α} {e : NormError}
    (h : require o = .error e) : e = .malformedRecord := by
  cases o <;> simp_all [require]

theorem create_page_from_block_data_error {r : RawRecord} {e : NormError}
    (h : create_page_from_block_data r = .error e) : e = .malformedRecord := by
  rcases r with ⟨rid, rc, rp, rl, rpage, rprops, rpre⟩
  rcases rpage with _ | ⟨pid, pname, pon⟩
  · simp_all [create_page_from_block_data, require]
  · rcases pid with _ | pid <;> rcases pname with _ | pname <;> rcases pon with _ | pon <;>
      simp_all [create_page_from_block_data, require]

theorem create_block_from_data_error {r : RawRecord} {e : NormError}
    (h : create_block_from_data r = .error e) : e = .malformedRecord := by
  rcases r with ⟨rid, rc, rp, rl, rpage, rprops, rpre⟩
  rcases rpage with _ | ⟨pid, pname, pon⟩
  · simp_all [create_block_from_data, require]
  · rcases pid with _ | pid <;> rcases rid with _ | rid <;> rcases rc with _ | rc <;>
      rcases rp with _ | ⟨⟨prid⟩⟩ <;> rcases rl with _ | ⟨⟨plid⟩⟩ <;>
      (try rcases prid with _ | prid) <;> (try rcases plid with _ | plid) <;>
      simp_all [create_block_from_data, require]

theorem pageIdOf_error {r : RawRecord} {e : NormError}
    (h : pageIdOf r = .error e) : e = .malformedRecord := by
  rcases r with ⟨rid, rc, rp, rl, rpage, rprops, rpre⟩
  rcases rpage with _ | ⟨pid, pname, pon⟩
  · simp_all [pageIdOf, require]
  · rcases pid with _ | pid <;> simp_all [pageIdOf, require]

theorem mapExcept_error_class {α β : Type} {f : α → Except NormError β} :
    ∀ {l : List α}, (∀ x ∈ l, ∀ e, f x = .error e → e = .malformedRecord) →
    ∀ {e : NormError}, mapExcept f l = .error e → e = .malformedRecord := by
  intro l
  induction l with
  | nil => intro _ e h; simp [mapExcept] at h
  | cons x xs ih =>
    intro hf e h
    rw [mapExcept] at h
    cases hx : f x with
    | error e1 =>
      rw [hx] at h
      injection h with he
      exact he ▸ hf x (List.mem_cons_self x xs) e1 hx
    | ok y =>
      rw [hx] at h
      cases hmE : mapExcept f xs with
      | error e2 =>
        rw [hmE] at h
        injection h with he
        exact he ▸ ih (fun z hz => hf z (List.mem_cons_of_mem x hz)) hmE
      | ok ys => rw [hmE] at h; cases h

theorem track_page_order_error {response : List RawRecord} {e : NormError}
    (h : track_page_order response = .error e) : e = .malformedRecord := by
  rw [track_page_order] at h
  cases hmE : mapExcept pageIdOf response with
  | error e1 =>
    rw [hmE] at h
    injection h with he
    exact he ▸ mapExcept_error_class (fun z _ e' he' => pageIdOf_error he') hmE
  | ok ids => rw [hmE] at h; cases h

theorem clean_response_error_class {response : List RawRecord} {e : NormError}
    (hne : response ≠ []) (h : clean_response response = .error e) :
    e = .malformedRecord := by
  rw [clean_response, if_neg (by simp [hne])] at h
  cases h1 : mapExcept create_page_from_block_data response with
  | error e1 =>
    rw [h1] at h
    injection h with he
    exact he ▸ mapExcept_error_class (fun z _ e' he' => create_page_from_block_data_error he') h1
  | ok pagePairs =>
    rw [h1] at h
    cases h2 : mapExcept create_block_from_data response with
    | error e2 =>
      rw [h2] at h
      injection h with he
      exact he ▸ mapExcept_error_class (fun z _ e' he' => create_block_from_data_error he') h2
    | ok blockPairs =>
      rw [h2] at h
      cases h3 : track_page_order response with
      | error e3 =>
        rw [h3] at h
        injection h with he
        exact he ▸ track_page_order_error h3
      | ok seen => rw [h3] at h; cases h

/-- C5: the facade returns `""` for the empty batch without consulting the
Normalizer, while the Normalizer itself rejects the empty batch with the
empty-input failure; the empty-input failure arises for no other input. -/
theorem c5_facade_empty_soft_normalizer_hard :
    (∀ property_filter format_property,
      page_to_markdown [] property_filter format_property = .ok "") ∧
    clean_response [] = .error .emptyInput ∧
    (∀ response : List RawRecord, response ≠ [] →
      clean_response response ≠ .error .emptyInput) := by
  refine ⟨fun _ _ => rfl, rfl, ?_⟩
  intro r hr hcontra
  cases clean_response_error_class hr hcontra

/-- C5 witness: the theorem applied to the empty batch and to a concrete
non-empty batch. -/
theorem c5_witness :
    page_to_markdown [] default_property_filter format_property_default = .ok "" ∧
    clean_response [recW5] ≠ .error .emptyInput :=
  ⟨c5_facade_empty_soft_normalizer_hard.1 default_property_filter format_property_default,
   c5_facade_empty_soft_normalizer_hard.2.2 [recW5] (by simp)⟩

/-! Helper lemma for the Property Extractor. -/

theorem extract_foldl_snd (property_filter : Block → Bool)
    (format_property : String → PropValue → String) :
    ∀ (l : List (Int × Block)) (acc : List String × List (Int × Block)),
    (List.foldl
      (fun acc kv =>
        let matched := property_filter kv.2
        let props :=
          if matched && !kv.2.properties.isEmpty then
            acc.1 ++ kv.2.properties.map (fun p => format_property p.1 p.2)
          else acc.1
        let should_remove := matched && true
        if should_remove then (props, acc.2) else (props, acc.2 ++ [kv]))
      acc l).2
    = acc.2 ++ l.filter (fun kv => !property_filter kv.2) := by
  intro l
  induction l with
  | nil => intro acc; simp
  | cons kv l ih =>
    intro acc
    rw [List.foldl_cons, ih, List.filter_cons]
    cases hm : property_filter kv.2 <;> simp [hm]

/-- C9 counterexample: with a predicate that matches a block whose property
map is empty, the block contributes no property lines and yet is removed
from `remaining_blocks` — contradicting the claim that a block with no
properties always passes through unchanged. -/
theorem c9_counterexample :
    blkC9.properties = [] ∧
    (extract_properties_func [(1, blkC9)] (fun _ => true) format_property_default true).1 = [] ∧
    ¬ ((1, blkC9) ∈
      (extract_properties_func [(1, blkC9)] (fun _ => true) format_property_default true).2) := by
  refine ⟨rfl, rfl, ?_⟩
  intro h
  have h2 : (extract_properties_func [(1, blkC9)] (fun _ => true)
      format_property_default true).2 = [] := rfl
  rw [h2] at h
  exact List.not_mem_nil _ h

/-- C9 amended: with `remove_extracted` true, `remaining_blocks` is exactly
the input mapping minus the predicate-matching blocks (whether or not those
matched blocks contributed property lines); hence a block not matching the
predicate always passes through unchanged, and under the default predicate
(which demands a non-empty property map) a block with no properties always
passes through unchanged. -/
theorem c9_extractor_remaining_blocks :
    ∀ (blocks : List (Int × Block)) (property_filter : Block → Bool)
      (format_property : String → PropValue → String),
    (extract_properties_func blocks property_filter format_property true).2
      = blocks.filter (fun kv => !property_filter kv.2) ∧
    (∀ kv ∈ blocks, property_filter kv.2 = false →
      kv ∈ (extract_properties_func blocks property_filter format_property true).2) ∧
    (∀ kv ∈ blocks, kv.2.properties = [] →
      kv ∈ (extract_properties_func blocks default_property_filter format_property true).2) := by
  intro blocks pf fmt
  have key : ∀ (pf : Block → Bool),
      (extract_properties_func blocks pf fmt true).2
        = blocks.filter (fun kv => !pf kv.2) := by
    intro pf
    have := extract_foldl_snd pf fmt blocks ([], [])
    simpa [extract_properties_func] using this
  refine ⟨key pf, ?_, ?_⟩
  · intro kv hkv hpf
    rw [key pf]
    exact List.mem_filter.mpr ⟨hkv, by simp [hpf]⟩
  · intro kv hkv hprops
    rw [key default_property_filter]
    exact List.mem_filter.mpr ⟨hkv, by simp [default_property_filter, hprops]⟩

/-- C9 witness: the amended theorem applied to a concrete mapping and
predicate. -/
theorem c9_witness :
    (1, blkC9) ∈
      (extract_properties_func [(1, blkC9)] default_property_filter
        format_property_default true).2 :=
  (c9_extractor_remaining_blocks [(1, blkC9)] default_property_filter
      format_property_default).2.2 (1, blkC9) (List.mem_cons_self _ _) rfl

/-! Helper lemmas for the Renderer. -/

theorem format_block_properties_some {props : List (String × PropValue)} (hne : props ≠ [])
    (indent : String) (format_property : String → PropValue → String) :
    format_block_properties props indent format_property =
      some (indent ++ "properties: " ++
        String.intercalate ", " (props.map (fun p => format_property p.1 p.2))) := by
  rw [format_block_properties]
  rw [if_neg (by simp [List.isEmpty_iff, hne])]
  rw [if_neg (by simp [List.isEmpty_iff, hne])]

theorem format_block_succ (fuel : Nat) (format_property : String → PropValue → String)
    (level : Nat) (block : Block) :
    format_block (fuel + 1) format_property level block =
      String.intercalate "\n"
        (contentLines block (indentStr level)
          ++ (match format_block_properties block.properties (indentStr (level + 1))
                format_property with
              | some s => [s]
              | none => [])
          ++ block.children.map (format_block fuel format_property (level + 1))) := rfl

/-- C10: a block that still carries a non-empty property map when it reaches
the Renderer gets one extra line right after its content lines and before its
children: the child-level indent, the literal text `properties: `, and the
formatted key-value pairs joined by `, `.  When the content has no code
fence the content lines are the single bullet line, so the property line
comes immediately after the bullet line. -/
theorem c10_inline_block_properties :
    ∀ (fuel : Nat) (format_property : String → PropValue → String) (level : Nat) (block : Block),
    block.properties ≠ [] →
    (format_block (fuel + 1) format_property level block =
      String.intercalate "\n"
        (contentLines block (indentStr level)
          ++ [indentStr (level + 1) ++ "properties: " ++
              String.intercalate ", " (block.properties.map (fun p => format_property p.1 p.2))]
          ++ block.children.map (format_block fuel format_property (level + 1)))) ∧
    (containsFence block.content.data = false →
      format_block (fuel + 1) format_property level block =
        String.intercalate "\n"
          ([indentStr level ++ "- " ++ block.content]
            ++ [indentStr (level + 1) ++ "properties: " ++
                String.intercalate ", " (block.properties.map (fun p => format_property p.1 p.2))]
            ++ block.children.map (format_block fuel format_property (level + 1)))) := by
  intro fuel fmt level b hne
  have main : format_block (fuel + 1) fmt level b =
      String.intercalate "\n"
        (contentLines b (indentStr level)
          ++ [indentStr (level + 1) ++ "properties: " ++
              String.intercalate ", " (b.properties.map (fun p => fmt p.1 p.2))]
          ++ b.children.map (format_block fuel fmt (level + 1))) := by
    rw [format_block_succ, format_block_properties_some hne]
  refine ⟨main, fun hfc => ?_⟩
  rw [main]
  have hcl : contentLines b (indentStr level) = [indentStr level ++ "- " ++ b.content] := by
    rw [contentLines, if_neg (by simp [hfc])]
  rw [hcl]

/-- C10 witness: the theorem applied to a concrete tagged block with one
child. -/
theorem c10_witness :
    format_block 2 format_property_default 0 blkW10 =
      String.intercalate "\n"
        (contentLines blkW10 (indentStr 0)
          ++ [indentStr 1 ++ "properties: " ++
              String.intercalate ", " (blkW10.properties.map
                (fun p => format_property_default p.1 p.2))]
          ++ blkW10.children.map (format_block 1 format_property_default 1)) :=
  (c10_inline_block_properties 1 format_property_default 0 blkW10 (by simp [blkW10])).1

/-! Helper lemmas about `dropLast` and `getLastD`. -/

theorem dropLast_concat_getLastD :
    ∀ (l : List String) (d : String), l ≠ [] → l.dropLast ++ [l.getLastD d] = l := by
  intro l
  induction l with
  | nil => intro d h; cases h rfl
  | cons a t ih =>
    intro d h
    cases t with
    | nil => rfl
    | cons b t2 =>
      rw [List.dropLast_cons₂, List.getLastD_cons, List.cons_append, ih a (by simp)]

theorem getLastD_of_two_le {l : List String} (h : 2 ≤ l.length) :
    l.getLastD "" = (l.drop 1).getLastD "" := by
  cases l with
  | nil => simp at h
  | cons a t =>
    cases t with
    | nil => simp at h
    | cons b t2 => rw [List.getLastD_cons]; rfl

/-- C8 counterexample: a single-line content containing the fence marker is
emitted twice — once as the bullet line and once as a continuation line —
contradicting the claim that every line of such content is emitted exactly
once. -/
theorem c8_counterexample :
    format_block 1 format_property_default 0 blkC8 = "- ```x\n  ```x" ∧
    format_block 1 format_property_default 0 blkC8 ≠ "- ```x" := by
  have h1 : format_block 1 format_property_default 0 blkC8 = "- ```x\n  ```x" := rfl
  exact ⟨h1, by rw [h1]; decide⟩

/-- C8 amended: for fenced content spanning at least two lines, every line of
the content is emitted exactly once and as-is — the first line as the bullet
line, every subsequent line (the closing fence included) prefixed by the
bullet's indent plus two extra spaces — at every nesting level; a
single-line content containing the marker is instead emitted twice (once as
the bullet line, once as a continuation line). -/
theorem c8_code_fence_lines :
    ∀ (fuel : Nat) (format_property : String → PropValue → String) (level : Nat) (block : Block),
    containsFence block.content.data = true →
    (2 ≤ (strLines block.content).length →
      format_block (fuel + 1) format_property level block =
        String.intercalate "\n"
          (((indentStr level ++ "- " ++ (strLines block.content).headD "")
              :: ((strLines block.content).drop 1).map
                  (fun line => indentStr level ++ "  " ++ line))
            ++ (match format_block_properties block.properties (indentStr (level + 1))
                  format_property with
                | some s => [s]
                | none => [])
            ++ block.children.map (format_block fuel format_property (level + 1)))) ∧
    ((strLines block.content).length = 1 →
      format_block (fuel + 1) format_property level block =
        String.intercalate "\n"
          ([indentStr level ++ "- " ++ (strLines block.content).headD "",
            indentStr level ++ "  " ++ (strLines block.content).headD ""]
            ++ (match format_block_properties block.properties (indentStr (level + 1))
                  format_property with
                | some s => [s]
                | none => [])
            ++ block.children.map (format_block fuel format_property (level + 1)))) := by
  intro fuel fmt level b hfence
  have hcl : contentLines b (indentStr level) =
      [indentStr level ++ "- " ++ (strLines b.content).headD ""]
        ++ ((strLines b.content).drop 1).dropLast.map
            (fun line => indentStr level ++ "  " ++ line)
        ++ [indentStr level ++ "  " ++ (strLines b.content).getLastD ""] := by
    rw [contentLines, if_pos hfence]
  constructor
  · intro h2
    have hne : (strLines b.content).drop 1 ≠ [] := by
      have : 1 ≤ ((strLines b.content).drop 1).length := by
        rw [List.length_drop]
        omega
      intro hnil
      rw [hnil] at this
      simp at this
    have hmid : ((strLines b.content).drop 1).dropLast.map
          (fun line => indentStr level ++ "  " ++ line)
        ++ [indentStr level ++ "  " ++ (strLines b.content).getLastD ""]
        = ((strLines b.content).drop 1).map (fun line => indentStr level ++ "  " ++ line) := by
      rw [getLastD_of_two_le h2]
      have : [indentStr level ++ "  " ++ ((strLines b.content).drop 1).getLastD ""]
          = [((strLines b.content).drop 1).getLastD ""].map
              (fun line => indentStr level ++ "  " ++ line) := rfl
      rw [this, ← List.map_append, dropLast_concat_getLastD _ _ hne]
    rw [format_block_succ, hcl]
    apply congrArg (String.intercalate "\n")
    rw [List.append_assoc, List.append_assoc, List.append_assoc]
    rw [← List.append_assoc
      (((strLines b.content).drop 1).dropLast.map (fun line => indentStr level ++ "  " ++ line))]
    rw [hmid]
    simp
  · intro h1
    obtain ⟨x, hx⟩ := List.length_eq_one.mp h1
    rw [format_block_succ, hcl, hx]
    simp

/-- C8 witness: the amended theorem applied to a three-line fenced block at
nesting level 1. -/
theorem c8_witness :
    format_block 1 format_property_default 1 blkW8 =
      String.intercalate "\n"
        (((indentStr 1 ++ "- " ++ (strLines blkW8.content).headD "")
            :: ((strLines blkW8.content).drop 1).map
                (fun line => indentStr 1 ++ "  " ++ line))
          ++ (match format_block_properties blkW8.properties (indentStr 2)
                format_property_default with
              | some s => [s]
              | none => [])
          ++ blkW8.children.map (format_block 0 format_property_default 2)) :=
  (c8_code_fence_lines 0 format_property_default 1 blkW8 (by decide)).1 (by decide)



/-! Helper lemmas about `extractFirst` and `chainLoop`. -/

theorem extractFirst_eq_some {p : Block → Bool} :
    ∀ {l : List Block} {c : Block} {rest : List Block},
    extractFirst p l = some (c, rest) →
    ∃ l₁ l₂, l = l₁ ++ c :: l₂ ∧ rest = l₁ ++ l₂ ∧ p c = true ∧ ∀ y ∈ l₁, p y = false := by
  intro l
  induction l with
  | nil => intro c rest h; simp [extractFirst] at h
  | cons b bs ih =>
    intro c rest h
    rw [extractFirst] at h
    cases hpb : p b with
    | true =>
      rw [if_pos hpb] at h
      injection h with h'
      have hbc : b = c := congrArg Prod.fst h'
      have hrest : bs = rest := congrArg Prod.snd h'
      exact ⟨[], bs, by simp [hbc], by simp [hrest], hbc ▸ hpb, by simp⟩
    | false =>
      rw [if_neg (by simp [hpb])] at h
      cases hrec : extractFirst p bs with
      | none => rw [hrec] at h; cases h
      | some pr =>
        obtain ⟨c0, rest0⟩ := pr
        rw [hrec] at h
        injection h with h'
        have hc0 : c0 = c := congrArg Prod.fst h'
        have hrest : b :: rest0 = rest := congrArg Prod.snd h'
        obtain ⟨l₁, l₂, hl, hr0, hpc, hl₁⟩ := ih hrec
        subst hc0
        refine ⟨b :: l₁, l₂, ?_, ?_, hpc, ?_⟩
        · rw [List.cons_append, ← hl]
        · rw [← hrest, hr0, List.cons_append]
        · intro y hy
          rcases List.mem_cons.mp hy with hyb | hyl
          · rw [hyb]; exact hpb
          · exact hl₁ y hyl

theorem extractFirst_eq_none {p : Block → Bool} :
    ∀ {l : List Block}, extractFirst p l = none → ∀ y ∈ l, p y = false := by
  intro l
  induction l with
  | nil => intro _ y hy; cases hy
  | cons b bs ih =>
    intro h y hy
    rw [extractFirst] at h
    cases hpb : p b with
    | true => rw [if_pos hpb] at h; cases h
    | false =>
      rw [if_neg (by simp [hpb])] at h
      cases hrec : extractFirst p bs with
      | none =>
        rcases List.mem_cons.mp hy with hyb | hyl
        · rw [hyb]; exact hpb
        · exact ih hrec y hyl
      | some pr => obtain ⟨c0, rest0⟩ := pr; rw [hrec] at h; cases h

theorem extractFirst_mem_of_pred {p : Block → Bool} {l : List Block} {y : Block}
    (hy : y ∈ l) (hpy : p y = true) : extractFirst p l ≠ none := by
  intro hnone
  rw [extractFirst_eq_none hnone y hy] at hpy
  cases hpy

theorem chainLoop_nil (fuel : Nat) (cur : Int) : chainLoop fuel cur [] = [] := by
  cases fuel <;> rfl

theorem chainLoop_perm :
    ∀ (fuel : Nat) (cur : Int) (rem : List Block),
    rem.length ≤ fuel → (chainLoop fuel cur rem).Perm rem := by
  intro fuel
  induction fuel with
  | zero =>
    intro cur rem h
    have : rem = [] := List.eq_nil_of_length_eq_zero (Nat.le_zero.mp h)
    subst this
    rw [chainLoop_nil]
  | succ n ih =>
    intro cur rem h
    rw [chainLoop]
    cases hext : extractFirst (fun child => child.left_id == cur) rem with
    | none => exact List.Perm.refl _
    | some pr =>
      obtain ⟨c, rest⟩ := pr
      obtain ⟨l₁, l₂, hl, hrest, hpc, hl₁⟩ := extractFirst_eq_some hext
      have hlen : rest.length ≤ n := by
        rw [hrest]
        rw [hl] at h
        simp at h ⊢
        omega
      have hperm := (ih c.id rest hlen).cons c
      refine hperm.trans ?_
      rw [hrest, hl]
      exact List.perm_middle.symm

/-! Helper lemmas for the sibling-chain specification predicates. -/

theorem lastId_cons (root : Int) (c : Block) (cs : List Block) :
    lastId root (c :: cs) = lastId c.id cs := by
  cases cs with
  | nil => rfl
  | cons d ds =>
    have hs : ((d :: ds).getLast?).isSome := List.getLast?_isSome.mpr (by simp)
    obtain ⟨x, hx⟩ := Option.isSome_iff_exists.mp hs
    rw [lastId, lastId, List.getLast?_cons_cons, hx]

theorem chainLoop_spec :
    ∀ (fuel : Nat) (cur : Int) (rem : List Block),
    rem.length ≤ fuel → ((rem.map Block.id).Nodup) →
    ∃ placed, chainLoop fuel cur rem
        = placed ++ rem.filter (fun c => !((placed.map Block.id).contains c.id)) ∧
      isChainFromB cur placed = true ∧
      ∀ y ∈ rem.filter (fun c => !((placed.map Block.id).contains c.id)),
        (y.left_id == lastId cur placed) = false := by
  intro fuel
  induction fuel with
  | zero =>
    intro cur rem h _
    have : rem = [] := List.eq_nil_of_length_eq_zero (Nat.le_zero.mp h)
    subst this
    exact ⟨[], by rw [chainLoop_nil]; rfl, rfl, by simp⟩
  | succ n ih =>
    intro cur rem h hnd
    rw [chainLoop]
    cases hext : extractFirst (fun child => child.left_id == cur) rem with
    | none =>
      refine ⟨[], by simp, rfl, ?_⟩
      intro y hy
      have hy' : y ∈ rem := by simpa using hy
      have := extractFirst_eq_none hext y hy'
      simpa [lastId] using this
    | some pr =>
      obtain ⟨c, rest⟩ := pr
      obtain ⟨l₁, l₂, hl, hrest, hpc, hl₁⟩ := extractFirst_eq_some hext
      have hlen : rest.length ≤ n := by
        rw [hrest]
        rw [hl] at h
        simp at h ⊢
        omega
      have hpermrem : rem.Perm (c :: rest) := by
        rw [hl, hrest]
        exact List.perm_middle
      have hnd2 : ((c :: rest).map Block.id).Nodup :=
        ((hpermrem.map Block.id).nodup_iff).mp hnd
      have hndrest : (rest.map Block.id).Nodup := (List.nodup_cons.mp (by simpa using hnd2)).2
      have hnotin : c.id ∉ rest.map Block.id := (List.nodup_cons.mp (by simpa using hnd2)).1
      obtain ⟨P', hEq, hChain, hBrk⟩ := ih c.id rest hlen hndrest
      have hfilters : rem.filter (fun y => !(((c :: P').map Block.id).contains y.id))
          = rest.filter (fun y => !((P'.map Block.id).contains y.id)) := by
        have hne : ∀ y ∈ rest, (y.id == c.id) = false := by
          intro y hy
          have : y.id ≠ c.id := by
            intro he
            exact hnotin (he ▸ List.mem_map_of_mem Block.id hy)
          simpa using this
        rw [hl, hrest]
        rw [List.filter_append, List.filter_append, List.filter_cons]
        have hc : (!(((c :: P').map Block.id).contains c.id)) = false := by
          simp [List.contains_cons]
        rw [hc]
        have hcong : ∀ (part : List Block), (∀ y ∈ part, (y.id == c.id) = false) →
            part.filter (fun y => !(((c :: P').map Block.id).contains y.id))
              = part.filter (fun y => !((P'.map Block.id).contains y.id)) := by
          intro part hpart
          apply List.filter_congr
          intro y hy
          rw [List.map_cons, List.contains_cons, hpart y hy]
          simp
        rw [hcong l₁ (fun y hy => hne y (by rw [hrest]; exact List.mem_append_left _ hy)),
          hcong l₂ (fun y hy => hne y (by rw [hrest]; exact List.mem_append_right _ hy))]
        simp
      refine ⟨c :: P', ?_, ?_, ?_⟩
      · show c :: chainLoop n c.id rest
            = (c :: P') ++ List.filter (fun y => !(((c :: P').map Block.id).contains y.id)) rem
        rw [hEq, hfilters, List.cons_append]
      · rw [isChainFromB]
        simp only [Bool.and_eq_true]
        exact ⟨hpc, hChain⟩
      · rw [hfilters, lastId_cons]
        exact hBrk

theorem perm_cons_filter_of_nodup :
    ∀ {ch : List Block} {fb : Block}, fb ∈ ch → ((ch.map Block.id).Nodup) →
    ch.Perm (fb :: ch.filter (fun c => c.id != fb.id)) := by
  intro ch
  induction ch with
  | nil => intro fb h; cases h
  | cons x xs ih =>
    intro fb hmem hnd
    have hx_notin : x.id ∉ xs.map Block.id := (List.nodup_cons.mp (by simpa using hnd)).1
    have hnd_tail : (xs.map Block.id).Nodup := (List.nodup_cons.mp (by simpa using hnd)).2
    rcases List.mem_cons.mp hmem with hfx | hfxs
    · subst hfx
      have hxs : xs.filter (fun c => c.id != fb.id) = xs := by
        rw [List.filter_eq_self]
        intro y hy
        have : y.id ≠ fb.id := by
          intro he
          exact hx_notin (he ▸ List.mem_map_of_mem Block.id hy)
        simpa using this
      rw [List.filter_cons]
      simp [hxs]
    · have hx_ne : (x.id != fb.id) = true := by
        have : x.id ≠ fb.id := by
          intro he
          exact hx_notin (he ▸ List.mem_map_of_mem Block.id hfxs)
        simpa using this
      rw [List.filter_cons, if_pos hx_ne]
      exact ((ih hfxs hnd_tail).cons x).trans (List.Perm.swap fb x _)

/-- C2: for any block mapping (distinct ids) and root, once a head is found
the sibling chain walk of the Tree Builder places every candidate exactly
once — its result is a permutation of the candidate set, of the same length
(at most `candidate_count` placement steps) — with no hypothesis on chain
integrity, so self- or mutually-referencing `left_id` cycles are covered. -/
theorem c2_chain_walk_terminates_exactly_once :
    ∀ (blocks : List (Int × Block)) (root : Int) (fb : Block),
    ((find_direct_children blocks root).map Block.id).Nodup →
    find_first_block (find_direct_children blocks root) root = some fb →
    (chain_blocks (find_direct_children blocks root) fb).Perm
        (find_direct_children blocks root) ∧
    (chain_blocks (find_direct_children blocks root) fb).length
      = (find_direct_children blocks root).length := by
  intro blocks root fb hnd hff
  have hmem : fb ∈ find_direct_children blocks root := List.mem_of_find?_eq_some hff
  have h1 := chainLoop_perm
    ((find_direct_children blocks root).filter (fun c => c.id != fb.id)).length fb.id
    ((find_direct_children blocks root).filter (fun c => c.id != fb.id)) le_rfl
  have h2 := perm_cons_filter_of_nodup hmem hnd
  have hperm : (chain_blocks (find_direct_children blocks root) fb).Perm
      (find_direct_children blocks root) := (h1.cons fb).trans h2.symm
  exact ⟨hperm, hperm.length_eq⟩

/-- C2 witness: the theorem applied to a candidate set containing a
self-referencing `left_id` cycle. -/
theorem c2_witness :
    (chain_blocks (find_direct_children blocksW2 100) blkW2Head).Perm
        (find_direct_children blocksW2 100) ∧
    (chain_blocks (find_direct_children blocksW2 100) blkW2Head).length
      = (find_direct_children blocksW2 100).length :=
  c2_chain_walk_terminates_exactly_once blocksW2 100 blkW2Head (by decide) rfl

/-- C3: with no head the Tree Builder outputs the candidate set in its
original order with no chain following; with a head but a chain that breaks
partway, the output is the chained placed blocks followed by all remaining
unplaced candidates in their original order, and at the break no unplaced
candidate's `left_id` equals the id of the last placed block. -/
theorem c3_tree_builder_degraded_fallbacks :
    (∀ (blocks : List (Int × Block)) (root : Int) (fuel : Nat),
      find_first_block (find_direct_children blocks root) root = none →
      (reorganizeFuel (fuel + 1) blocks root).map forgetChildren
        = (find_direct_children blocks root).map forgetChildren) ∧
    (∀ (blocks : List (Int × Block)) (root : Int) (fb : Block),
      ((find_direct_children blocks root).map Block.id).Nodup →
      find_first_block (find_direct_children blocks root) root = some fb →
      ∃ placed,
        chain_blocks (find_direct_children blocks root) fb
          = (fb :: placed) ++ (find_direct_children blocks root).filter
              (fun c => !(((fb :: placed).map Block.id).contains c.id)) ∧
        isChainFromB root (fb :: placed) = true ∧
        ∀ y ∈ (find_direct_children blocks root).filter
            (fun c => !(((fb :: placed).map Block.id).contains c.id)),
          (y.left_id == lastId root (fb :: placed)) = false) := by
  constructor
  · intro blocks root fuel hff
    by_cases hch : find_direct_children blocks root = []
    · rw [reorganizeFuel, if_pos (by simp [List.isEmpty_iff, hch]), hch]
    · rw [reorganizeFuel, if_neg (by simp [List.isEmpty_iff, hch]), hff]
      simp only [List.map_map]
      rfl
  · intro blocks root fb hnd hff
    have hff' : List.find? (fun child => child.left_id == root)
        (find_direct_children blocks root) = some fb := hff
    have hmem : fb ∈ find_direct_children blocks root := List.mem_of_find?_eq_some hff'
    have hpfb := @List.find?_some _ (fun child => child.left_id == root) fb
      (find_direct_children blocks root) hff'
    have hndrem : (((find_direct_children blocks root).filter
        (fun c => c.id != fb.id)).map Block.id).Nodup :=
      List.Nodup.sublist ((List.filter_sublist _).map Block.id) hnd
    obtain ⟨P', hEq, hChain, hBrk⟩ := chainLoop_spec
      ((find_direct_children blocks root).filter (fun c => c.id != fb.id)).length fb.id
      ((find_direct_children blocks root).filter (fun c => c.id != fb.id)) le_rfl hndrem
    have hfilters : ((find_direct_children blocks root).filter
          (fun c => c.id != fb.id)).filter (fun c => !((P'.map Block.id).contains c.id))
        = (find_direct_children blocks root).filter
            (fun c => !(((fb :: P').map Block.id).contains c.id)) := by
      rw [List.filter_filter]
      apply List.filter_congr
      intro y _
      rw [List.map_cons, List.contains_cons, Bool.not_or, Bool.and_comm]
      rfl
    refine ⟨P', ?_, ?_, ?_⟩
    · have : chain_blocks (find_direct_children blocks root) fb
          = fb :: chainLoop ((find_direct_children blocks root).filter
              (fun c => c.id != fb.id)).length fb.id
              ((find_direct_children blocks root).filter (fun c => c.id != fb.id)) := rfl
      rw [this, hEq, hfilters, List.cons_append]
    · rw [isChainFromB]
      simp only [Bool.and_eq_true]
      exact ⟨hpfb, hChain⟩
    · intro y hy
      rw [lastId_cons]
      exact hBrk y (by rw [hfilters]; exact hy)

/-- C3 witness: the no-head fallback on a headless candidate set, and the
broken-chain fallback on a chain that breaks after two placements. -/
theorem c3_witness :
    ((reorganizeFuel 2 blocksW3a 100).map forgetChildren
      = (find_direct_children blocksW3a 100).map forgetChildren) ∧
    (∃ placed,
      chain_blocks (find_direct_children blocksW3b 100) blkW3bHead
        = (blkW3bHead :: placed) ++ (find_direct_children blocksW3b 100).filter
            (fun c => !(((blkW3bHead :: placed).map Block.id).contains c.id)) ∧
      isChainFromB 100 (blkW3bHead :: placed) = true ∧
      ∀ y ∈ (find_direct_children blocksW3b 100).filter
          (fun c => !(((blkW3bHead :: placed).map Block.id).contains c.id)),
        (y.left_id == lastId 100 (blkW3bHead :: placed)) = false) :=
  ⟨c3_tree_builder_degraded_fallbacks.1 blocksW3a 100 1 rfl,
   c3_tree_builder_degraded_fallbacks.2 blocksW3b 100 blkW3bHead (by decide) rfl⟩

/-! Helper lemmas for the malformed-record claim. -/

theorem missing_field_create_error {r : RawRecord} (h : hasRequiredFields r = false) :
    create_page_from_block_data r = .error .malformedRecord ∨
    create_block_from_data r = .error .malformedRecord := by
  rcases r with ⟨rid, rc, rp, rl, rpage, rprops, rpre⟩
  rcases rpage with _ | ⟨pid, pname, pon⟩
  · left; rfl
  · rcases pid with _ | pid
    · left; rfl
    · rcases pname with _ | pname
      · left; rfl
      · rcases pon with _ | pon
        · left; rfl
        · right
          rcases rid with _ | rid
          · rfl
          · rcases rc with _ | rc
            · rfl
            · rcases rp with _ | ⟨⟨prid⟩⟩
              · rfl
              · rcases prid with _ | prid
                · rfl
                · rcases rl with _ | ⟨⟨plid⟩⟩
                  · rfl
                  · rcases plid with _ | plid
                    · rfl
                    · exfalso
                      simp [hasRequiredFields] at h

theorem mapExcept_error_of_mem {α β : Type} {f : α → Except NormError β} {x : α} :
    ∀ {l : List α}, x ∈ l → f x = .error .malformedRecord →
    (∀ y ∈ l, ∀ e, f y = .error e → e = .malformedRecord) →
    mapExcept f l = .error .malformedRecord := by
  intro l
  induction l with
  | nil => intro h; cases h
  | cons y ys ih =>
    intro hmem hfx hcl
    rw [mapExcept]
    cases hy : f y with
    | error e =>
      rw [hcl y (List.mem_cons_self y ys) e hy]
    | ok v =>
      rcases List.mem_cons.mp hmem with hxy | hxs
      · rw [hxy, hy] at hfx; cases hfx
      · rw [ih hxs hfx (fun z hz => hcl z (List.mem_cons_of_mem y hz))]

/-- C6: a non-empty batch containing a record that lacks any required nested
field makes the Normalizer fail with the malformed-record condition, and the
facade does not catch it — the same failure is the facade's result. -/
theorem c6_malformed_record_propagates :
    ∀ (response : List RawRecord) (property_filter : Block → Bool)
      (format_property : String → PropValue → String) (bad : RawRecord),
    bad ∈ response → hasRequiredFields bad = false →
    clean_response response = .error .malformedRecord ∧
    page_to_markdown response property_filter format_property
      = .error .malformedRecord := by
  intro response pf fmt bad hmem hbad
  have hne : response ≠ [] := by
    intro h
    rw [h] at hmem
    cases hmem
  have hclean : clean_response response = .error .malformedRecord := by
    rw [clean_response, if_neg (by simp [hne])]
    rcases missing_field_create_error hbad with hcp | hcb
    · rw [mapExcept_error_of_mem hmem hcp
        (fun y _ e he => create_page_from_block_data_error he)]
    · cases h1 : mapExcept create_page_from_block_data response with
      | error e1 =>
        have he1 : e1 = .malformedRecord := mapExcept_error_class
          (fun y _ e he => create_page_from_block_data_error he) h1
        rw [he1]
      | ok pagePairs =>
        rw [mapExcept_error_of_mem hmem hcb
          (fun y _ e he => create_block_from_data_error he)]
  refine ⟨hclean, ?_⟩
  rw [page_to_markdown, if_neg (by simp [hne]), hclean]

/-- C6 witness: the theorem applied to a batch containing a record whose
`content` field is missing. -/
theorem c6_witness :
    clean_response [recW6] = .error .malformedRecord ∧
    page_to_markdown [recW6] default_property_filter format_property_default
      = .error .malformedRecord :=
  c6_malformed_record_propagates [recW6] default_property_filter format_property_default
    recW6 (List.mem_cons_self _ _) (by decide)

/-! Helper lemmas for the stable descending page sort. -/

theorem insertPageDesc_perm (p : Page) : ∀ (l : List Page), (insertPageDesc p l).Perm (p :: l) := by
  intro l
  induction l with
  | nil => exact .refl _
  | cons q qs ih =>
    rw [insertPageDesc]
    by_cases hq : q.id < p.id
    · rw [if_pos hq]
    · rw [if_neg hq]
      exact (ih.cons q).trans (List.Perm.swap p q qs)

theorem foldl_insert_perm : ∀ (l acc : List Page),
    (l.foldl (fun acc p => insertPageDesc p acc) acc).Perm (acc ++ l) := by
  intro l
  induction l with
  | nil => intro acc; simp
  | cons p ps ih =>
    intro acc
    rw [List.foldl_cons]
    refine (ih _).trans ?_
    refine ((insertPageDesc_perm p acc).append_right ps).trans ?_
    exact List.perm_middle.symm

theorem sortPagesDesc_perm (pages : List Page) : (sortPagesDesc pages).Perm pages := by
  have := foldl_insert_perm pages []
  simpa [sortPagesDesc] using this

theorem insertPageDesc_sorted {l : List Page} (p : Page)
    (h : l.Pairwise (fun a b => b.id ≤ a.id)) :
    (insertPageDesc p l).Pairwise (fun a b => b.id ≤ a.id) := by
  induction l with
  | nil => simp [insertPageDesc]
  | cons q qs ih =>
    obtain ⟨hq, hqs⟩ := List.pairwise_cons.mp h
    rw [insertPageDesc]
    by_cases hlt : q.id < p.id
    · rw [if_pos hlt]
      rw [List.pairwise_cons]
      refine ⟨?_, h⟩
      intro b hb
      rcases List.mem_cons.mp hb with h1 | h2
      · rw [h1]; omega
      · have := hq b h2; omega
    · rw [if_neg hlt]
      rw [List.pairwise_cons]
      refine ⟨?_, ih hqs⟩
      intro b hb
      have hmem : b ∈ p :: qs := (insertPageDesc_perm p qs).mem_iff.mp hb
      rcases List.mem_cons.mp hmem with h1 | h2
      · rw [h1]; omega
      · exact hq b h2

theorem foldl_insert_sorted : ∀ (l acc : List Page),
    acc.Pairwise (fun a b => b.id ≤ a.id) →
    (l.foldl (fun acc p => insertPageDesc p acc) acc).Pairwise (fun a b => b.id ≤ a.id) := by
  intro l
  induction l with
  | nil => intro acc h; exact h
  | cons p ps ih =>
    intro acc h
    rw [List.foldl_cons]
    exact ih _ (insertPageDesc_sorted p h)

theorem sortPagesDesc_sorted (pages : List Page) :
    (sortPagesDesc pages).Pairwise (fun a b => b.id ≤ a.id) :=
  foldl_insert_sorted pages [] List.Pairwise.nil

theorem sortPagesDesc_strict {pages : List Page} (hnd : (pages.map Page.id).Nodup) :
    (sortPagesDesc pages).Pairwise (fun a b => b.id < a.id) := by
  have hs := sortPagesDesc_sorted pages
  have hnd2 : ((sortPagesDesc pages).map Page.id).Nodup :=
    (((sortPagesDesc_perm pages).map Page.id).nodup_iff).mpr hnd
  have hne : (sortPagesDesc pages).Pairwise (fun a b => a.id ≠ b.id) :=
    (List.pairwise_map).mp hnd2
  exact (hs.and hne).imp (fun h => lt_of_le_of_ne h.1 (Ne.symm h.2))

/-! Helper lemmas tracking distinctness of page ids through the Normalizer. -/

theorem dedupFirst_aux_nodup : ∀ (l : List Int) (acc : List Int), acc.Nodup →
    (l.foldl (fun acc i => if acc.contains i then acc else acc ++ [i]) acc).Nodup := by
  intro l
  induction l with
  | nil => intro acc h; exact h
  | cons i t ih =>
    intro acc h
    rw [List.foldl_cons]
    by_cases hc : acc.contains i
    · rw [if_pos hc]; exact ih acc h
    · rw [if_neg hc]
      apply ih
      rw [List.nodup_append]
      refine ⟨h, List.nodup_singleton i, ?_⟩
      intro a ha hai
      rw [List.mem_singleton] at hai
      subst hai
      exact hc (by simpa using ha)

theorem dedupFirst_nodup (ids : List Int) : (dedupFirst ids).Nodup :=
  dedupFirst_aux_nodup ids [] List.nodup_nil

theorem mapExcept_ok_mem {α β : Type} {f : α → Except NormError β} :
    ∀ {l : List α} {ys : List β}, mapExcept f l = .ok ys →
    ∀ y ∈ ys, ∃ x ∈ l, f x = .ok y := by
  intro l
  induction l with
  | nil =>
    intro ys h y hy
    rw [mapExcept] at h
    injection h with h'
    subst h'
    cases hy
  | cons x xs ih =>
    intro ys h y hy
    rw [mapExcept] at h
    cases hx : f x with
    | error e => rw [hx] at h; cases h
    | ok v =>
      rw [hx] at h
      cases hrec : mapExcept f xs with
      | error e => rw [hrec] at h; cases h
      | ok vs =>
        rw [hrec] at h
        injection h with h'
        subst h'
        rcases List.mem_cons.mp hy with h1 | h2
        · exact ⟨x, List.mem_cons_self _ _, by rw [hx, h1]⟩
        · obtain ⟨x', hx', hfx'⟩ := ih hrec y h2
          exact ⟨x', List.mem_cons_of_mem _ hx', hfx'⟩

theorem create_page_ok_id {r : RawRecord} {pr : Int × Page}
    (h : create_page_from_block_data r = .ok pr) : pr.2.id = pr.1 := by
  rcases r with ⟨rid, rc, rp, rl, rpage, rprops, rpre⟩
  rcases rpage with _ | ⟨pid, pname, pon⟩
  · cases h
  · rcases pid with _ | pid <;> rcases pname with _ | pname <;> rcases pon with _ | pon <;>
      simp_all [create_page_from_block_data, require]
    subst h
    rfl

theorem pages_dict_inv :
    ∀ (pairs : List (Int × Page)) (acc : List (Int × Page)),
    (∀ q ∈ acc, q.2.id = q.1) → (∀ q ∈ pairs, q.2.id = q.1) →
    ∀ q ∈ pairs.foldl pagesDictInsert acc, q.2.id = q.1 := by
  intro pairs
  induction pairs with
  | nil => intro acc ha _ q hq; exact ha q hq
  | cons p ps ih =>
    intro acc ha hp q hq
    rw [List.foldl_cons] at hq
    refine ih _ ?_ (fun z hz => hp z (List.mem_cons_of_mem _ hz)) q hq
    intro z hz
    rw [pagesDictInsert] at hz
    by_cases hc : acc.any (fun q => q.1 == p.1)
    · rw [if_pos hc] at hz; exact ha z hz
    · rw [if_neg hc] at hz
      rcases List.mem_append.mp hz with h1 | h2
      · exact ha z h1
      · rw [List.mem_singleton] at h2
        rw [h2]
        exact hp p (List.mem_cons_self _ _)

theorem find?_key_eq {d : List (Int × Page)} {pid : Int} {q : Int × Page}
    (h : d.find? (fun q => q.1 == pid) = some q) : q.1 = pid := by
  have := @List.find?_some _ (fun q => q.1 == pid) q d h
  exact eq_of_beq this

theorem filterMap_pages_nodup {g : Int → Option Page}
    (hg : ∀ pid pg, g pid = some pg → pg.id = pid) :
    ∀ {seen : List Int}, seen.Nodup → ((seen.filterMap g).map Page.id).Nodup := by
  intro seen
  induction seen with
  | nil => intro _; simp
  | cons s ss ih =>
    intro hnd
    obtain ⟨hs, hss⟩ := List.nodup_cons.mp hnd
    rw [List.filterMap_cons]
    cases hgs : g s with
    | none => exact ih hss
    | some pg =>
      rw [List.map_cons, List.nodup_cons]
      refine ⟨?_, ih hss⟩
      intro hmem
      rw [List.mem_map] at hmem
      obtain ⟨pg', hpg', hid⟩ := hmem
      rw [List.mem_filterMap] at hpg'
      obtain ⟨pid', hpid', hgpid'⟩ := hpg'
      have h1 : pg.id = s := hg s pg hgs
      have h2 : pg'.id = pid' := hg pid' pg' hgpid'
      rw [h2, h1] at hid
      exact hs (hid ▸ hpid')

theorem cleanedPages_nodup :
    ∀ (response : List RawRecord) (pages : List Page) (blocks : List (Int × Block)),
    clean_response response = .ok (pages, blocks) → (pages.map Page.id).Nodup := by
  intro response pages blocks h
  rw [clean_response] at h
  by_cases hne : response.isEmpty
  · rw [if_pos hne] at h; cases h
  · rw [if_neg hne] at h
    cases h1 : mapExcept create_page_from_block_data response with
    | error e => rw [h1] at h; cases h
    | ok pagePairs =>
      rw [h1] at h
      cases h2 : mapExcept create_block_from_data response with
      | error e => rw [h2] at h; cases h
      | ok blockPairs =>
        rw [h2] at h
        cases h3 : track_page_order response with
        | error e => rw [h3] at h; cases h
        | ok seen =>
          rw [h3] at h
          injection h with h'
          have hpages : pages = seen.filterMap (fun page_id =>
              (List.find? (fun q => q.1 == page_id)
                (pagePairs.foldl pagesDictInsert [])).map Prod.snd) :=
            (congrArg Prod.fst h').symm
          have hseen : seen.Nodup := by
            rw [track_page_order] at h3
            cases h4 : mapExcept pageIdOf response with
            | error e => rw [h4] at h3; cases h3
            | ok ids =>
              rw [h4] at h3
              injection h3 with h3'
              rw [← h3']
              exact dedupFirst_nodup ids
          have hinv : ∀ q ∈ pagePairs.foldl pagesDictInsert [], q.2.id = q.1 := by
            refine pages_dict_inv _ _ (fun q hq => absurd hq (List.not_mem_nil q)) ?_
            intro q hq
            obtain ⟨r, _, hr⟩ := mapExcept_ok_mem h1 q hq
            exact create_page_ok_id hr
          have hg : ∀ pid pg,
              ((List.find? (fun q => q.1 == pid)
                (pagePairs.foldl pagesDictInsert [])).map Prod.snd) = some pg →
              pg.id = pid := by
            intro pid pg hfind
            obtain ⟨q, hq, hq2⟩ := Option.map_eq_some'.mp hfind
            have hk := find?_key_eq hq
            have hv := hinv q (List.mem_of_find?_eq_some hq)
            rw [← hq2, hv]
            exact hk
          rw [hpages]
          exact filterMap_pages_nodup hg hseen

/-- C7: with more than one page, the facade renders each page independently
from exactly the blocks whose `page_id` equals the page's id, orders the
per-page documents by strictly descending numeric page id (a permutation of
the page list), and joins them with a double newline separator. -/
theorem c7_multi_page_descending_join :
    ∀ (response : List RawRecord) (property_filter : Block → Bool)
      (format_property : String → PropValue → String),
    clean_response response = .ok (cleanedPages response, cleanedBlocks response) →
    2 ≤ (cleanedPages response).length →
    page_to_markdown response property_filter format_property
      = .ok (String.intercalate "\n\n" ((sortPagesDesc (cleanedPages response)).map
          (fun page => build_markdown page
            ((cleanedBlocks response).filter (fun kv => kv.2.page_id == page.id))
            property_filter format_property))) ∧
    (sortPagesDesc (cleanedPages response)).Pairwise (fun a b => b.id < a.id) ∧
    (sortPagesDesc (cleanedPages response)).Perm (cleanedPages response) := by
  intro response pf fmt hok h2
  have hne : response ≠ [] := by
    intro h
    subst h
    simp [clean_response] at hok
  refine ⟨?_, sortPagesDesc_strict (cleanedPages_nodup response _ _ hok), sortPagesDesc_perm _⟩
  rw [page_to_markdown, if_neg (by simp [hne]), hok]
  cases hp : cleanedPages response with
  | nil => simp [hp] at h2
  | cons p1 rest =>
    cases rest with
    | nil => simp [hp] at h2
    | cons p2 rest2 => rfl

/-- C7 witness: the theorem applied to a three-page batch given in scrambled
input order (1000, 3000, 2000). -/
theorem c7_witness :
    (page_to_markdown respW7 default_property_filter format_property_default
      = .ok (String.intercalate "\n\n" ((sortPagesDesc (cleanedPages respW7)).map
          (fun page => build_markdown page
            ((cleanedBlocks respW7).filter (fun kv => kv.2.page_id == page.id))
            default_property_filter format_property_default)))) ∧
    (sortPagesDesc (cleanedPages respW7)).Pairwise (fun a b => b.id < a.id) ∧
    (sortPagesDesc (cleanedPages respW7)).Perm (cleanedPages respW7) :=
  c7_multi_page_descending_join respW7 default_property_filter format_property_default
    rfl (by decide)

/-! Helper lemmas for orphan dropping. -/

theorem reorganizeFuel_succ (fuel : Nat) (blocks : List (Int × Block)) (parent_id : Int) :
    reorganizeFuel (fuel + 1) blocks parent_id =
      if (find_direct_children blocks parent_id).isEmpty then []
      else
        ((match find_first_block (find_direct_children blocks parent_id) parent_id with
          | some first_block => chain_blocks (find_direct_children blocks parent_id) first_block
          | none => find_direct_children blocks parent_id) : List Block).map
          (fun child => { child with children := reorganizeFuel fuel blocks child.id }) := rfl

theorem chain_blocks_mem {ch : List Block} {fb : Block} (hfb : fb ∈ ch) :
    ∀ {y : Block}, y ∈ chain_blocks ch fb → y ∈ ch := by
  intro y hy
  rcases List.mem_cons.mp hy with h1 | h2
  · rw [h1]; exact hfb
  · have hperm := chainLoop_perm (ch.filter (fun c => c.id != fb.id)).length fb.id
      (ch.filter (fun c => c.id != fb.id)) le_rfl
    have : y ∈ ch.filter (fun c => c.id != fb.id) := hperm.mem_iff.mp h2
    exact (List.mem_filter.mp this).1

theorem reach_trans {blocks : List (Int × Block)} {r m q : Int}
    (h1 : ReachId blocks r m) (h2 : ReachId blocks m q) : ReachId blocks r q := by
  induction h2 with
  | base => exact h1
  | step hb _ ih => exact ReachId.step hb ih

theorem reach_inv {blocks : List (Int × Block)} {root q : Int} (h : ReachId blocks root q) :
    q = root ∨ ∃ d ∈ blocks.map Prod.snd, d.id = q ∧ ReachId blocks root d.parent_id := by
  cases h with
  | base => exact Or.inl rfl
  | step hd hp => exact Or.inr ⟨_, hd, rfl, hp⟩

theorem insubtree_mem {blocks : List (Int × Block)} {o b : Block}
    (ho : o ∈ blocks.map Prod.snd) (h : InSubtree blocks o b) : b ∈ blocks.map Prod.snd := by
  induction h with
  | base => exact ho
  | step _ hb _ _ => exact hb

theorem block_id_inj {values : List Block} (hnd : (values.map Block.id).Nodup)
    {a b : Block} (ha : a ∈ values) (hb : b ∈ values) (hid : a.id = b.id) : a = b :=
  List.inj_on_of_nodup_map hnd ha hb hid

theorem reorganize_mem_reach :
    ∀ (fuel : Nat) (blocks : List (Int × Block)) (root : Int) (x : Block),
    InForest x (reorganizeFuel fuel blocks root) →
    ReachId blocks root x.id ∧ ∃ b0 ∈ blocks.map Prod.snd, b0.id = x.id := by
  intro fuel
  induction fuel with
  | zero =>
    intro blocks root x hx
    have h0 : reorganizeFuel 0 blocks root = [] := rfl
    rw [h0] at hx
    cases hx with
    | here ht _ => exact absurd ht (List.not_mem_nil _)
    | deeper ht _ => exact absurd ht (List.not_mem_nil _)
  | succ n ih =>
    intro blocks root x hx
    rw [reorganizeFuel_succ] at hx
    by_cases hch : (find_direct_children blocks root).isEmpty
    · rw [if_pos hch] at hx
      cases hx with
      | here ht _ => exact absurd ht (List.not_mem_nil _)
      | deeper ht _ => exact absurd ht (List.not_mem_nil _)
    · rw [if_neg hch] at hx
      have hsub : ∀ c, c ∈ (match find_first_block (find_direct_children blocks root) root with
          | some first_block => chain_blocks (find_direct_children blocks root) first_block
          | none => find_direct_children blocks root) →
          c ∈ find_direct_children blocks root := by
        cases hff : find_first_block (find_direct_children blocks root) root with
        | some fb =>
          intro c hc
          have hff' : List.find? (fun child => child.left_id == root)
              (find_direct_children blocks root) = some fb := hff
          exact chain_blocks_mem (List.mem_of_find?_eq_some hff') hc
        | none => intro c hc; exact hc
      cases hx with
      | @here t ts ht hxt =>
        obtain ⟨c, hc, hgc⟩ := List.mem_map.mp ht
        have hcch := hsub c hc
        have hcv : c ∈ blocks.map Prod.snd := (List.mem_filter.mp hcch).1
        have hcp : c.parent_id = root := eq_of_beq (List.mem_filter.mp hcch).2
        have hxid : x.id = c.id := by rw [hxt, ← hgc]
        constructor
        · rw [hxid]
          exact ReachId.step hcv (by rw [hcp]; exact ReachId.base)
        · exact ⟨c, hcv, hxid.symm⟩
      | @deeper t ts ht hdeep =>
        obtain ⟨c, hc, hgc⟩ := List.mem_map.mp ht
        have hcch := hsub c hc
        have hcv : c ∈ blocks.map Prod.snd := (List.mem_filter.mp hcch).1
        have hcp : c.parent_id = root := eq_of_beq (List.mem_filter.mp hcch).2
        have hchildren : t.children = reorganizeFuel n blocks c.id := by rw [← hgc]
        rw [hchildren] at hdeep
        obtain ⟨hreach, hex⟩ := ih blocks c.id x hdeep
        refine ⟨?_, hex⟩
        exact reach_trans (ReachId.step hcv (by rw [hcp]; exact ReachId.base)) hreach

theorem reach_not_insubtree {blocks : List (Int × Block)} {root : Int} {o : Block}
    (hnd : ((blocks.map Prod.snd).map Block.id).Nodup)
    (hroot : ∀ y ∈ blocks.map Prod.snd, y.id ≠ root)
    (ho : o ∈ blocks.map Prod.snd)
    (hop1 : o.parent_id ≠ root)
    (hop2 : ∀ y ∈ blocks.map Prod.snd, y.id ≠ o.parent_id) :
    ∀ {q : Int}, ReachId blocks root q →
    ∀ b ∈ blocks.map Prod.snd, b.id = q → ¬ InSubtree blocks o b := by
  intro q hreach
  induction hreach with
  | base =>
    intro b hb hbid _
    exact hroot b hb hbid
  | @step c hc hrp ih =>
    intro b hb hbid hsub
    have hbc : b = c := block_id_inj hnd hb hc hbid
    subst hbc
    cases hsub with
    | base =>
      rcases reach_inv hrp with h1 | ⟨d, hd, hdid, _⟩
      · exact hop1 h1
      · exact hop2 d hd hdid
    | @step _ c' hsub' hb' hp' =>
      exact ih c' (insubtree_mem ho hsub') hp'.symm hsub'

/-- C4: an orphan block — one whose `parent_id` is neither the page root id
nor the id of any block in the mapping — never appears in the Tree Builder's
output forest, and neither does any block of its subtree (the blocks
reachable from it via `parent_id` links), at any recursion depth; since the
Renderer walks exactly this forest, no such block reaches the rendered
Markdown.  (Block ids are assumed distinct and distinct from the page id,
per the data model's global-uniqueness invariant.) -/
theorem c4_orphan_subtree_dropped :
    ∀ (blocks : List (Int × Block)) (root : Int) (o b : Block) (fuel : Nat),
    ((blocks.map Prod.snd).map Block.id).Nodup →
    (∀ y ∈ blocks.map Prod.snd, y.id ≠ root) →
    o ∈ blocks.map Prod.snd →
    o.parent_id ≠ root →
    (∀ y ∈ blocks.map Prod.snd, y.id ≠ o.parent_id) →
    InSubtree blocks o b →
    ∀ x, InForest x (reorganizeFuel fuel blocks root) → x.id ≠ b.id := by
  intro blocks root o b fuel hnd hroot ho hop1 hop2 hsub x hx hxb
  obtain ⟨hreach, b0, hb0v, hb0id⟩ := reorganize_mem_reach fuel blocks root x hx
  have hbv : b ∈ blocks.map Prod.snd := insubtree_mem ho hsub
  have hreachb : ReachId blocks root b.id := by rw [← hxb]; exact hreach
  exact reach_not_insubtree hnd hroot ho hop1 hop2 hreachb b hbv rfl hsub

/-- C4 witness: a mapping with one good root block, an orphan (parent id 50
resolves to nothing), and a block under the orphan; neither the orphan's
child nor (a fortiori) the orphan appears in the built tree. -/
theorem c4_witness : blkW4Root.id ≠ blkOrphanChild.id :=
  c4_orphan_subtree_dropped blocksW4 99 blkOrphan blkOrphanChild 4
    (by decide) (by decide)
    (List.Mem.tail _ (List.Mem.head _))
    (by decide) (by decide)
    (InSubtree.step InSubtree.base (List.Mem.tail _ (List.Mem.tail _ (List.Mem.head _))) rfl)
    blkW4Root (InForest.here (List.Mem.head _) rfl)

/-! Helper lemmas about intact chains: the left ids along a chain, their
distinctness, and exact reconstruction by both the source walk and the
spec walk. -/

theorem and_eq_true_elim {a b : Bool} (h : (a && b) = true) : a = true ∧ b = true := by
  simpa using h

theorem chain_left_mem_ids : ∀ (L : List Block) (s : Int), isChainFromB s L = true →
    ∀ y ∈ L, y.left_id = s ∨ y.left_id ∈ L.map Block.id := by
  intro L
  induction L with
  | nil => intro s _ y hy; cases hy
  | cons c cs ih =>
    intro s hch y hy
    rw [isChainFromB] at hch
    obtain ⟨h1, h2⟩ := and_eq_true_elim hch
    rcases List.mem_cons.mp hy with h3 | h4
    · left; rw [h3]; exact eq_of_beq h1
    · rcases ih c.id h2 y h4 with h5 | h6
      · right; rw [List.map_cons, h5]; exact List.mem_cons_self _ _
      · right; rw [List.map_cons]; exact List.mem_cons_of_mem _ h6

theorem chain_lefts_eq : ∀ (L : List Block) (s : Int), isChainFromB s L = true →
    L.map Block.left_id = (s :: L.map Block.id).dropLast := by
  intro L
  induction L with
  | nil => intro s _; rfl
  | cons c cs ih =>
    intro s hch
    rw [isChainFromB] at hch
    obtain ⟨h1, h2⟩ := and_eq_true_elim hch
    rw [List.map_cons, ih c.id h2, List.map_cons, List.dropLast_cons₂, eq_of_beq h1]

theorem chain_append_from : ∀ (done : List Block) (s : Int) (todo : List Block),
    isChainFromB s (done ++ todo) = true → isChainFromB (lastId s done) todo = true := by
  intro done
  induction done with
  | nil => intro s todo h; exact h
  | cons d ds ih =>
    intro s todo h
    rw [List.cons_append, isChainFromB] at h
    obtain ⟨_, h2⟩ := and_eq_true_elim h
    rw [lastId_cons]
    exact ih d.id todo h2

theorem lastId_concat (r : Int) (xs : List Block) (c : Block) :
    lastId r (xs ++ [c]) = c.id := by
  rw [lastId, List.getLast?_concat]

theorem chain_lefts_nodup {L : List Block} {root : Int}
    (hch : isChainFromB root L = true)
    (hnd : (L.map Block.id).Nodup)
    (hcount : L.countP (fun c => c.left_id == root) = 1) :
    (L.map Block.left_id).Nodup := by
  cases L with
  | nil => simp
  | cons c cs =>
    rw [chain_lefts_eq _ _ hch, List.map_cons, List.dropLast_cons₂, List.nodup_cons]
    constructor
    · intro hmem
      rw [isChainFromB] at hch
      obtain ⟨h1, h2⟩ := and_eq_true_elim hch
      rw [← chain_lefts_eq cs c.id h2] at hmem
      obtain ⟨y, hy, hyl⟩ := List.mem_map.mp hmem
      have hcnt : (c :: cs).countP (fun b => b.left_id == root)
          = cs.countP (fun b => b.left_id == root) + 1 := by
        rw [List.countP_cons, if_pos h1]
      have hge : 0 < cs.countP (fun b => b.left_id == root) :=
        List.countP_pos_iff.mpr ⟨y, hy, by simp [hyl]⟩
      rw [hcnt] at hcount
      omega
    · exact List.Nodup.sublist (List.dropLast_sublist _) (by simpa using hnd)

theorem countP_one_unique {p : Block → Bool} {l : List Block} (h : l.countP p = 1)
    {a b : Block} (ha : a ∈ l) (hpa : p a = true) (hb : b ∈ l) (hpb : p b = true) : a = b := by
  have hfl : (l.filter p).length = 1 := by
    rw [← List.countP_eq_length_filter]
    exact h
  obtain ⟨x, hx⟩ := List.length_eq_one.mp hfl
  have h1 : a ∈ l.filter p := List.mem_filter.mpr ⟨ha, hpa⟩
  have h2 : b ∈ l.filter p := List.mem_filter.mpr ⟨hb, hpb⟩
  rw [hx] at h1 h2
  rw [List.mem_singleton.mp h1, List.mem_singleton.mp h2]

theorem chainLoop_exact :
    ∀ (L : List Block) (cur : Int) (rem : List Block) (fuel : Nat),
    rem.length ≤ fuel → rem.Perm L → isChainFromB cur L = true →
    (L.map Block.id).Nodup → cur ∉ L.map Block.id →
    chainLoop fuel cur rem = L := by
  intro L
  induction L with
  | nil =>
    intro cur rem fuel _ hperm _ _ _
    rw [hperm.eq_nil]
    exact chainLoop_nil _ _
  | cons c rest ih =>
    intro cur rem fuel hlen hperm hchain hnd hcur
    have hremne : rem ≠ [] := by
      intro h
      subst h
      simpa using hperm.length_eq
    cases fuel with
    | zero =>
      exact absurd (List.eq_nil_of_length_eq_zero (Nat.le_zero.mp hlen)) hremne
    | succ n =>
      rw [isChainFromB] at hchain
      obtain ⟨hcleft, hchainrest⟩ := and_eq_true_elim hchain
      rw [chainLoop]
      cases hext : extractFirst (fun child => child.left_id == cur) rem with
      | none =>
        exfalso
        have hcmem : c ∈ rem := hperm.mem_iff.mpr (List.mem_cons_self _ _)
        exact extractFirst_mem_of_pred hcmem hcleft hext
      | some pr =>
        obtain ⟨y, rem'⟩ := pr
        obtain ⟨l₁, l₂, hl, hrest, hpy, _⟩ := extractFirst_eq_some hext
        have hymem : y ∈ c :: rest := hperm.mem_iff.mp
          (by rw [hl]; exact List.mem_append_right _ (List.mem_cons_self _ _))
        have hyc : y = c := by
          rcases List.mem_cons.mp hymem with h1 | h2
          · exact h1
          · exfalso
            have hyleft : y.left_id = cur := eq_of_beq hpy
            rcases chain_left_mem_ids rest c.id hchainrest y h2 with hA | hB
            · have hcc : cur = c.id := by rw [← hyleft, hA]
              exact hcur (by rw [hcc, List.map_cons]; exact List.mem_cons_self _ _)
            · have hcc : cur ∈ rest.map Block.id := hyleft ▸ hB
              exact hcur (by rw [List.map_cons]; exact List.mem_cons_of_mem _ hcc)
        subst hyc
        have hpermrem' : rem'.Perm rest := by
          have h1 : rem.Perm (y :: rem') := by
            rw [hl, hrest]
            exact List.perm_middle
          exact (h1.symm.trans hperm).cons_inv
        have hnd' : (rest.map Block.id).Nodup := (List.nodup_cons.mp (by simpa using hnd)).2
        have hynotin : y.id ∉ rest.map Block.id := (List.nodup_cons.mp (by simpa using hnd)).1
        have hlen' : rem'.length ≤ n := by
          rw [hrest]
          rw [hl] at hlen
          simp at hlen ⊢
          omega
        show y :: chainLoop n y.id rem' = y :: rest
        rw [ih y.id rem' n hlen' hpermrem' hchainrest hnd' hynotin]

theorem chain_blocks_exact {ch : List Block} {root : Int} {L : List Block} {fb : Block}
    (hnd : (ch.map Block.id).Nodup)
    (hcount : ch.countP (fun c => c.left_id == root) = 1)
    (hperm : ch.Perm L) (hchain : isChainFromB root L = true)
    (hff : find_first_block ch root = some fb) :
    chain_blocks ch fb = L := by
  have hLne : L ≠ [] := by
    intro h
    subst h
    rw [hperm.eq_nil] at hcount
    simp at hcount
  cases L with
  | nil => exact absurd rfl hLne
  | cons l1 L' =>
    have hff' : List.find? (fun child => child.left_id == root) ch = some fb := hff
    have hfbmem : fb ∈ ch := List.mem_of_find?_eq_some hff'
    have hfbp := @List.find?_some _ (fun child => child.left_id == root) fb ch hff'
    rw [isChainFromB] at hchain
    obtain ⟨hl1, hchain'⟩ := and_eq_true_elim hchain
    have hl1mem : l1 ∈ ch := hperm.mem_iff.mpr (List.mem_cons_self _ _)
    have hfbl1 : fb = l1 := countP_one_unique hcount hfbmem hfbp hl1mem hl1
    rw [hfbl1]
    have hndL : ((l1 :: L').map Block.id).Nodup := ((hperm.map Block.id).nodup_iff).mp hnd
    have hl1notin : l1.id ∉ L'.map Block.id := (List.nodup_cons.mp (by simpa using hndL)).1
    have hndL' : (L'.map Block.id).Nodup := (List.nodup_cons.mp (by simpa using hndL)).2
    have hfilter : (ch.filter (fun c => c.id != l1.id)).Perm L' := by
      have h1 : (ch.filter (fun c => c.id != l1.id)).Perm
          ((l1 :: L').filter (fun c => c.id != l1.id)) :=
        hperm.filter (fun c => c.id != l1.id)
      rw [List.filter_cons] at h1
      have hcond : (l1.id != l1.id) = false := by simp
      rw [hcond] at h1
      have h2 : L'.filter (fun c => c.id != l1.id) = L' := by
        rw [List.filter_eq_self]
        intro y hy
        have : y.id ≠ l1.id := by
          intro he
          exact hl1notin (he ▸ List.mem_map_of_mem Block.id hy)
        simpa using this
      rw [h2] at h1
      simpa using h1
    show l1 :: chainLoop (ch.filter (fun child => child.id != l1.id)).length l1.id
        (ch.filter (fun child => child.id != l1.id)) = l1 :: L'
    rw [chainLoop_exact L' l1.id _ _ le_rfl hfilter hchain' hndL' hl1notin]

theorem specChain_succ (ch : List Block) (n : Nat) (current : Int) :
    specChain ch (n + 1) current =
      match ch.find? (fun c => c.left_id == current) with
      | none => []
      | some c => c :: specChain ch n c.id := rfl

theorem specChain_exact {ch : List Block} {root : Int} {L : List Block}
    (hnd : (ch.map Block.id).Nodup)
    (hcount : ch.countP (fun c => c.left_id == root) = 1)
    (hperm : ch.Perm L) (hchain : isChainFromB root L = true) :
    specChain ch ch.length root = L := by
  have hndL : (L.map Block.id).Nodup := ((hperm.map Block.id).nodup_iff).mp hnd
  have hcountL : L.countP (fun c => c.left_id == root) = 1 := by
    rw [← hperm.countP_eq]
    exact hcount
  have hlefts : (L.map Block.left_id).Nodup := chain_lefts_nodup hchain hndL hcountL
  have main : ∀ (todo done : List Block), L = done ++ todo →
      specChain ch todo.length (lastId root done) = todo := by
    intro todo
    induction todo with
    | nil => intro done _; rfl
    | cons c rest ihtodo =>
      intro done hsplit
      have hchaintodo : isChainFromB (lastId root done) (c :: rest) = true := by
        apply chain_append_from done root (c :: rest)
        rw [← hsplit]
        exact hchain
      rw [isChainFromB] at hchaintodo
      obtain ⟨hcl, hcrest⟩ := and_eq_true_elim hchaintodo
      have hcmemL : c ∈ L := by
        rw [hsplit]
        exact List.mem_append_right _ (List.mem_cons_self _ _)
      have hcmem : c ∈ ch := hperm.mem_iff.mpr hcmemL
      have hfind : ch.find? (fun b => b.left_id == lastId root done) = some c := by
        cases hf : ch.find? (fun b => b.left_id == lastId root done) with
        | none =>
          exfalso
          have hex : ∃ x ∈ ch, (fun b => b.left_id == lastId root done) x = true :=
            ⟨c, hcmem, hcl⟩
          have hsome := List.find?_isSome.mpr hex
          rw [hf] at hsome
          cases hsome
        | some y =>
          have hy := List.mem_of_find?_eq_some hf
          have hpy := @List.find?_some _ (fun b => b.left_id == lastId root done) y ch hf
          have hyL : y ∈ L := hperm.mem_iff.mp hy
          have hyc : y = c := by
            refine List.inj_on_of_nodup_map hlefts hyL hcmemL ?_
            have e1 : y.left_id = lastId root done := eq_of_beq hpy
            have e2 : c.left_id = lastId root done := eq_of_beq hcl
            rw [e1, e2]
          rw [hyc]
      show specChain ch (rest.length + 1) (lastId root done) = c :: rest
      rw [specChain_succ, hfind]
      have hstep := ihtodo (done ++ [c]) (by rw [hsplit, List.append_assoc]; rfl)
      rw [lastId_concat] at hstep
      show c :: specChain ch rest.length c.id = c :: rest
      rw [hstep]
  have hlen : ch.length = L.length := hperm.length_eq
  have hL := main L [] rfl
  rw [hlen]
  exact hL

theorem GoodRec_succ (fuel : Nat) (blocks : List (Int × Block)) (root : Int) :
    GoodRec (fuel + 1) blocks root =
      ((find_direct_children blocks root ≠ [] → GoodLevel blocks root) ∧
        ∀ c ∈ find_direct_children blocks root, GoodRec fuel blocks c.id) := rfl

theorem specTree_succ (fuel : Nat) (blocks : List (Int × Block)) (root : Int) :
    specTree (fuel + 1) blocks root = (specOrder blocks root).map
      (fun c => { c with children := specTree fuel blocks c.id }) := rfl

/-- C1: under the spec's well-formedness assumptions at every level reached
(distinct candidate ids, exactly one head, an intact acyclic chain covering
all candidates), the Tree Builder output equals the spec-side tree built by
repeatedly taking the candidate whose `left_id` is the id of the previously
placed block, recursively at every level; moreover the top-level output is
exactly any chain arrangement of the candidates, which is therefore
unique. -/
theorem c1_tree_builder_intact_chain_order :
    ∀ (fuel : Nat) (blocks : List (Int × Block)) (root : Int),
    GoodRec fuel blocks root →
    reorganizeFuel fuel blocks root = specTree fuel blocks root ∧
    (∀ L, 0 < fuel → (find_direct_children blocks root).Perm L →
      isChainFromB root L = true →
      (reorganizeFuel fuel blocks root).map forgetChildren = L.map forgetChildren) := by
  intro fuel
  induction fuel with
  | zero =>
    intro blocks root _
    exact ⟨rfl, fun L h0 _ _ => absurd h0 (Nat.lt_irrefl 0)⟩
  | succ n ih =>
    intro blocks root hG
    rw [GoodRec_succ] at hG
    obtain ⟨hLevel, hRec⟩ := hG
    by_cases hch : find_direct_children blocks root = []
    · have h1 : reorganizeFuel (n + 1) blocks root = [] := by
        rw [reorganizeFuel_succ, if_pos (by simp [List.isEmpty_iff, hch])]
      have h2 : specTree (n + 1) blocks root = [] := by
        rw [specTree_succ, specOrder, hch]
        rfl
      refine ⟨by rw [h1, h2], ?_⟩
      intro L _ hperm _
      have hLnil : L = [] := by
        rw [hch] at hperm
        exact hperm.symm.eq_nil
      rw [h1, hLnil]
    · have hGL := hLevel hch
      obtain ⟨hnd, hcount, L0, hperm0, hchain0⟩ := hGL
      have hex : ∃ x ∈ find_direct_children blocks root,
          (fun c => c.left_id == root) x = true := by
        have hpos : 0 < (find_direct_children blocks root).countP
            (fun c => c.left_id == root) := by
          rw [hcount]
          omega
        exact List.countP_pos_iff.mp hpos
      have hffsome : (List.find? (fun child => child.left_id == root)
          (find_direct_children blocks root)).isSome = true :=
        List.find?_isSome.mpr hex
      obtain ⟨fb, hff⟩ := Option.isSome_iff_exists.mp hffsome
      have hffb : find_first_block (find_direct_children blocks root) root = some fb := hff
      have hchainEq : chain_blocks (find_direct_children blocks root) fb = L0 :=
        chain_blocks_exact hnd hcount hperm0 hchain0 hffb
      have hspecEq : specOrder blocks root = L0 :=
        specChain_exact hnd hcount hperm0 hchain0
      constructor
      · rw [reorganizeFuel_succ, if_neg (by simp [List.isEmpty_iff, hch]), hffb]
        show (chain_blocks (find_direct_children blocks root) fb).map
            (fun child => { child with children := reorganizeFuel n blocks child.id })
            = specTree (n + 1) blocks root
        rw [hchainEq, specTree_succ, hspecEq]
        apply List.map_congr_left
        intro c hcL
        have hcch : c ∈ find_direct_children blocks root := hperm0.mem_iff.mpr hcL
        rw [(ih blocks c.id (hRec c hcch)).1]
      · intro L _ hpermL hchainL
        have hchainEqL : chain_blocks (find_direct_children blocks root) fb = L :=
          chain_blocks_exact hnd hcount hpermL hchainL hffb
        rw [reorganizeFuel_succ, if_neg (by simp [List.isEmpty_iff, hch]), hffb]
        show ((chain_blocks (find_direct_children blocks root) fb).map
            (fun child => { child with children := reorganizeFuel n blocks child.id })).map
            forgetChildren = L.map forgetChildren
        rw [hchainEqL, List.map_map]
        rfl

/-- C1 witness: two chained root blocks followed by a nested block, given in
chain order; the builder output equals the spec tree and the top level is
the unique chain arrangement. -/
theorem c1_witness :
    reorganizeFuel 3 blocksW1 100 = specTree 3 blocksW1 100 ∧
    (reorganizeFuel 3 blocksW1 100).map forgetChildren
      = (find_direct_children blocksW1 100).map forgetChildren := by
  have hGood : GoodRec 3 blocksW1 100 := by
    refine ⟨fun _ => ⟨by decide, by decide,
      ⟨find_direct_children blocksW1 100, List.Perm.refl _, by decide⟩⟩, ?_⟩
    intro c hc
    have hc' : c ∈ [blkW1, blkW2] := hc
    rcases List.mem_cons.mp hc' with h | h
    · subst h
      refine ⟨fun _ => ⟨by decide, by decide,
        ⟨find_direct_children blocksW1 blkW1.id, List.Perm.refl _, by decide⟩⟩, ?_⟩
      intro d hd
      have hd' : d ∈ [blkW3] := hd
      rw [List.mem_singleton] at hd'
      subst hd'
      exact ⟨fun hne => absurd rfl hne, fun e he => absurd he (List.not_mem_nil e)⟩
    · rw [List.mem_singleton] at h
      subst h
      exact ⟨fun hne => absurd rfl hne, fun e he => absurd he (List.not_mem_nil e)⟩
  have h := c1_tree_builder_intact_chain_order 3 blocksW1 100 hGood
  exact ⟨h.1, h.2 (find_direct_children blocksW1 100) (by omega)
    (List.Perm.refl _) (by decide)⟩
